import Mathlib

/-!
Shallow embedding of the Block-Memory-System repository:
`block_driver.c` (the driver façade: power-on/off, open, close, read, write,
seek) and `block_cache.c` (the frame cache with LRU eviction and
write-through updates), together with theorems checking the repository's
specification against this embedding.

Modelling conventions:
* machine integers are modelled as `Nat`/`Int`; the `uint16_t` counters of
  the cache (`putTracker`, `lastAccess`, `access`) are reduced mod 2^16
  where the C code would wrap;
* fixed-size byte frames are modelled as functions `Nat → Nat` (index in
  frame to byte value); `memcpy` over sub-ranges becomes `memcpyRange`;
* the C global state becomes explicit state records threaded through the
  operations; `int32_t`/`int16_t` results become `Int` results (`-1` for
  failure, as in the source);
* `file_t*` back-references inside handles become indices into the file
  table; fixed global arrays become total functions from `Nat`;
* compile-time constants from headers that are not part of the repository
  sources (`BLOCK_FRAME_SIZE`, `BLOCK_MAX_TOTAL_FILES`, the default cache
  size) are fixed to concrete values consistent with the specification's
  example scenario (frame size 256).
-/

/-- A byte value. -/
abbrev Byte := Nat

/-- Contents of one fixed-size frame: a map from in-frame index to byte. -/
abbrev FrameData := Nat → Byte

/-- `BLOCK_FRAME_SIZE`: compile-time frame size; the header defining it is
not part of the repository sources, the value 256 is the one used in the
specification's example scenario. -/
def BLOCK_FRAME_SIZE : Nat := 256

/-- `BLOCK_MAX_TOTAL_FILES`: maximum number of file-table slots (also the
number of reserved metadata frames).  The defining header is not in the
repository sources; the concrete value is irrelevant to the theorems. -/
def BLOCK_MAX_TOTAL_FILES : Nat := 8

/-- Bound on allocatable frame numbers, used by the spec-modelled frame
allocator to express "frame allocation exhausted". -/
def BLOCK_MAX_FRAMES : Nat := 65536

/-- Reduction mod 2^16, modelling `uint16_t` arithmetic in the cache. -/
def U16 (n : Nat) : Nat := n % 65536

/-- `memcpy(dst + dOff, src + sOff, len)` on byte maps. -/
def memcpyRange (dst : FrameData) (dOff : Nat) (src : FrameData) (sOff : Nat)
    (len : Nat) : FrameData :=
  fun i => if dOff ≤ i ∧ i < dOff + len then src (sOff + (i - dOff)) else dst i

/-- Pointwise update of a table modelled as a total function. -/
def updFun {α : Type} (f : Nat → α) (i : Nat) (v : α) : Nat → α :=
  fun j => if j = i then v else f j

/-! ### The frame cache (`block_cache.c`) -/

/-- `struct cacheEntry`: block number, frame number (with `-1` as the
invalid sentinel written by `init_block_cache`), `uint16_t` access stamp,
and the cached frame contents. -/
structure cacheEntry where
  block : Nat
  frm : Int
  access : Nat
  cacheFrame : FrameData

/-- The zeroed entry produced by `init_block_cache` (`memset` to 0, then
`frm = -1`). -/
def emptyEntry : cacheEntry :=
  { block := 0, frm := -1, access := 0, cacheFrame := fun _ => 0 }

/-- Entry lookup with the `memset`-zero entry as default (out-of-range
indices never occur in the verified runs). -/
def entryAt (l : List cacheEntry) (i : Nat) : cacheEntry :=
  l.getD i emptyEntry

/-- The cache globals of `block_cache.c`: `block_cache_max_items`, the
`cache` array, `putTracker`, `lastAccess`, `cacheOn`. -/
structure CacheState where
  maxItems : Nat
  cache : List cacheEntry
  putTracker : Nat
  lastAccess : Nat
  cacheOn : Bool

/-- First index holding frame number `frm`, mirroring the linear scans
`for (i...) if (cache[i].frm == frm)` in `put_block_cache` and
`get_block_cache`. -/
def findFrm : List cacheEntry → Int → Option Nat
  | [], _ => none
  | e :: t, f => if e.frm = f then some 0 else (findFrm t f).map (· + 1)

/-- The eviction scan of `put_block_cache`: running minimum of the
`access` fields (`replaceTracker`) with the index of its first strict
improvement (`index`). -/
def scanMinAux : List cacheEntry → Nat → Nat → Nat → Nat
  | [], _, _, idx => idx
  | e :: t, i, best, idx =>
      if e.access < best then scanMinAux t (i + 1) e.access i
      else scanMinAux t (i + 1) best idx

/-- `replaceTracker = cache[0].access; index = 0;` followed by the scan
over all slots (the loop starts at `i = 0`, re-comparing slot 0). -/
def scanMinIdx (l : List cacheEntry) : Nat :=
  scanMinAux l 0 (l.headD emptyEntry).access 0

/-- `set_block_cache_size`: overwrites `block_cache_max_items`
unconditionally and returns 0. -/
def set_block_cache_size (c : CacheState) (max_frames : Nat) :
    Int × CacheState :=
  (0, { c with maxItems := max_frames })

/-- `init_block_cache`: fails if already on; otherwise allocates
`maxItems` zeroed slots with `frm = -1` and turns the cache on.  Note the
source does not reset `putTracker`/`lastAccess`. -/
def init_block_cache (c : CacheState) : Int × CacheState :=
  if c.cacheOn then (-1, c)
  else (0, { c with cache := List.replicate c.maxItems emptyEntry,
                    cacheOn := true })

/-- `close_block_cache`: fails if not on; otherwise clears and frees the
entry array (modelled as the empty list) and turns the cache off. -/
def close_block_cache (c : CacheState) : Int × CacheState :=
  if !c.cacheOn then (-1, c)
  else (0, { c with cache := [], cacheOn := false })

/-- `put_block_cache`: update-in-place on a hit; first free slot
(`putTracker`) while the cache is not full; otherwise evict the slot with
the minimal `access` stamp (first such index). -/
def put_block_cache (c : CacheState) (blk : Nat) (frm : Int)
    (buf : FrameData) : Int × CacheState :=
  if !c.cacheOn then (-1, c)
  else
    match findFrm c.cache frm with
    | some i =>
        let la := U16 (c.lastAccess + 1)
        (0, { c with
              lastAccess := la,
              cache := c.cache.set i
                { entryAt c.cache i with access := la, cacheFrame := buf } })
    | none =>
        if c.putTracker < c.maxItems then
          let la := U16 (c.lastAccess + 1)
          (0, { c with
                lastAccess := la,
                putTracker := U16 (c.putTracker + 1),
                cache := c.cache.set c.putTracker
                  { block := blk, frm := frm, access := la, cacheFrame := buf } })
        else
          let j := scanMinIdx c.cache
          let la := U16 (c.lastAccess + 1)
          (0, { c with
                lastAccess := la,
                cache := c.cache.set j
                  { block := blk, frm := frm, access := la, cacheFrame := buf } })

/-- `get_block_cache`: scan for the frame; on a hit bump its `access`
stamp to the incremented `lastAccess` and return the cached contents; on a
miss return `NULL` (here `none`) and leave the cache untouched. -/
def get_block_cache (c : CacheState) (blk : Nat) (frm : Int) :
    Option FrameData × CacheState :=
  match findFrm c.cache frm with
  | some i =>
      let la := U16 (c.lastAccess + 1)
      (some (entryAt c.cache i).cacheFrame,
       { c with
         lastAccess := la,
         cache := c.cache.set i { entryAt c.cache i with access := la } })
  | none => (none, c)

/-! ### The driver (`block_driver.c`) -/

/-- `file_t`: name, size in bytes, ordered list of allocated frame
numbers.  The fixed `char` name array is modelled as the list of name
bytes (NUL terminator and zero padding are implicit). -/
structure FileT where
  name : List Byte
  size : Nat
  frames : List Nat

/-- A device frame.  Data frames carry raw bytes; the reserved metadata
frames (one per file slot) carry a serialized `file_t`.  The byte-level
struct layout lives in headers that are not part of the repository
sources, so the serialization is abstracted as exact (the C code memcpy's
the same struct layout in both directions). -/
inductive DFrame where
  | bytes (f : FrameData)
  | meta (f : FileT)

/-- `fh_t`: back-reference to the file (an index into the file table,
standing for the C `file_t*`), the byte cursor `loc`, and the open/closed
status (`true` = `OPEN`; `CLOSED` is the zero value). -/
structure FhT where
  file : Nat
  loc : Nat
  status : Bool

/-- A zeroed (closed) handle. -/
def emptyHandle : FhT := { file := 0, loc := 0, status := false }

/-- A zeroed file-table entry. -/
def emptyFile : FileT := { name := [], size := 0, frames := [] }

/-- The driver globals of `block_driver.c` plus the cache state and the
persistent device contents. -/
structure DriverState where
  isOn : Bool
  nbFiles : Nat
  nbHandles : Nat
  freeFrameNr : Nat
  files : Nat → FileT
  handles : Nat → FhT
  bcache : CacheState
  device : Nat → DFrame

/-- Reading a device frame as raw bytes (`BLOCK_OP_RDFRME` into a data
buffer). A metadata frame read as data yields unspecified bytes, modelled
as zeros; the verified runs never do this. -/
def frameBytes : DFrame → FrameData
  | .bytes f => f
  | .meta _ => fun _ => 0

/-- Decoding a metadata frame back into a `file_t` (the `memcpy` in
`block_poweron`).  A data frame decodes to the zero struct. -/
def decodeMeta : DFrame → FileT
  | .meta f => f
  | .bytes _ => emptyFile

/-! ### Spec-modelled helpers

`block_driver_helper.c` is not among the repository sources (only its
header is included by `block_driver.c`), so the helpers below are
modelled from the specification's description in §4.2/§4.3. -/

/-- Modelled from the spec: `createNewFile` (helper missing from the
repository sources) "creates a new File Table entry with zero size and an
empty frame list" carrying the requested name. -/
def createNewFile (path : List Byte) : FileT :=
  { name := path, size := 0, frames := [] }

/-- Modelled from the spec: `openFile` (helper missing from the
repository sources) binds a fresh handle to the resolved file "with
cursor at 0 and status open". -/
def openFile (fileIdx : Nat) : FhT :=
  { file := fileIdx, loc := 0, status := true }

/-- Modelled from the spec: `closeFile` (helper missing from the
repository sources) "marks the handle closed". -/
def closeFile (h : FhT) : FhT :=
  { h with status := false }

/-- Modelled from the spec: `closeAllFiles` (helper missing from the
repository sources) "closes all open handles". -/
def closeAllFiles (hs : Nat → FhT) : Nat → FhT :=
  fun i => closeFile (hs i)

/-- Modelled from the spec: `getNbFiles` (helper missing from the
repository sources) recomputes the "total file count from the loaded
metadata"; occupied slots are those with a nonempty name. -/
def getNbFiles (fs : Nat → FileT) : Nat :=
  (List.range BLOCK_MAX_TOTAL_FILES).countP (fun i => !(fs i).name.isEmpty)

/-- Modelled from the spec: `getFreeFrame` (helper missing from the
repository sources) computes "the first free frame number" from the
loaded metadata: past every allocated frame and past the reserved
metadata frames. -/
def getFreeFrame (fs : Nat → FileT) : Nat :=
  (List.range BLOCK_MAX_TOTAL_FILES).foldl
    (fun acc i => (fs i).frames.foldl (fun a f => max a (f + 1)) acc)
    BLOCK_MAX_TOTAL_FILES

/-- Ceiling division, for frame counts. -/
def ceilDiv (a b : Nat) : Nat := (a + b - 1) / b

/-- Modelled from the spec: `allocateNewFrames` (helper missing from the
repository sources) "ensures the file has enough allocated frames to
cover `cursor + count` bytes, extending the frame list (allocating new
frame numbers) as needed; fails if frame allocation is exhausted".  Fresh
frame numbers are drawn consecutively from `freeFrameNr`. -/
def allocateNewFrames (s : DriverState) (fd : Nat) (count : Nat) :
    Option DriverState :=
  let h := s.handles fd
  let f := s.files h.file
  let needed := ceilDiv (h.loc + count) BLOCK_FRAME_SIZE
  if needed ≤ f.frames.length then some s
  else
    let k := needed - f.frames.length
    if BLOCK_MAX_FRAMES < s.freeFrameNr + k then none
    else
      some { s with
        files := updFun s.files h.file
          { f with frames :=
              f.frames ++ (List.range k).map (fun j => s.freeFrameNr + j) },
        freeFrameNr := s.freeFrameNr + k }

/-! ### Read and write loops -/

/-- The bytes `memcpy`'d out of a frame: `frame + off`, length `len`. -/
def readChunk (fr : FrameData) (off len : Nat) : List Byte :=
  (List.range len).map (fun j => fr (off + j))

/-- The `while (remaining != 0)` loop of `block_read`: per iteration,
locate the frame containing the cursor, consult the cache (on a miss read
the device and `put` the frame), copy the in-frame sub-range, advance.
`fuel` bounds the iteration count (the driver passes the clamped byte
count, which suffices because every iteration consumes at least one
byte). -/
def readLoop (dev : Nat → DFrame) (frames : List Nat) :
    Nat → Nat → Nat → CacheState → List Byte × Nat × CacheState
  | 0, loc, _, c => ([], loc, c)
  | fuel + 1, loc, remaining, c =>
    if remaining = 0 then ([], loc, c)
    else
      let frame_offset := loc % BLOCK_FRAME_SIZE
      let frame_nr := frames.getD (loc / BLOCK_FRAME_SIZE) 0
      let g := get_block_cache c 0 (frame_nr : Int)
      let frame := match g.1 with
        | none => frameBytes (dev frame_nr)
        | some f => f
      let c2 := match g.1 with
        | none => (put_block_cache g.2 0 (frame_nr : Int) (frameBytes (dev frame_nr))).2
        | some _ => g.2
      let data_size :=
        if BLOCK_FRAME_SIZE - frame_offset > remaining then remaining
        else BLOCK_FRAME_SIZE - frame_offset
      let r := readLoop dev frames fuel (loc + data_size) (remaining - data_size) c2
      (readChunk frame frame_offset data_size ++ r.1, r.2)

/-- The `while (remaining > 0)` loop of `block_write`: per iteration,
load the target frame (cache hit, else a device read — preserving the
untouched remainder of a partially overwritten frame), overlay the
caller's bytes, write the frame to the device (`BLOCK_OP_WRFRME`,
unconditionally) and `put` it into the cache, advance.  Returns the final
cursor, device, and cache. -/
def writeLoop (frames : List Nat) (buf : FrameData) :
    Nat → Nat → Nat → Nat → (Nat → DFrame) → CacheState →
    Nat × (Nat → DFrame) × CacheState
  | 0, loc, _, _, dev, c => (loc, dev, c)
  | fuel + 1, loc, bufOffset, remaining, dev, c =>
    if remaining = 0 then (loc, dev, c)
    else
      let frame_nr := frames.getD (loc / BLOCK_FRAME_SIZE) 0
      let frame_offset := loc % BLOCK_FRAME_SIZE
      let g := get_block_cache c 0 (frame_nr : Int)
      let frame := match g.1 with
        | none => frameBytes (dev frame_nr)
        | some f => f
      let data_size :=
        if BLOCK_FRAME_SIZE - frame_offset > remaining then remaining
        else BLOCK_FRAME_SIZE - frame_offset
      let frame' := memcpyRange frame frame_offset buf bufOffset data_size
      let dev' := updFun dev frame_nr (.bytes frame')
      let c2 := (put_block_cache g.2 0 (frame_nr : Int) frame').2
      writeLoop frames buf fuel (loc + data_size) (bufOffset + data_size)
        (remaining - data_size) dev' c2

/-! ### The driver operations -/

/-- `block_poweron`: fail if already on; otherwise execute `INITMS`, set
`isOn`, zero the handle table, load one metadata frame per file slot into
the file table, recompute the counters, and initialize the cache.  Note:
on a cache-initialization failure the source returns `-1` but has already
set `isOn` and loaded the tables. -/
def block_poweron (s : DriverState) : Int × DriverState :=
  if s.isOn then (-1, s)
  else
    let files' := fun i =>
      if i < BLOCK_MAX_TOTAL_FILES then decodeMeta (s.device i) else s.files i
    let handles' := fun i =>
      if i < BLOCK_MAX_TOTAL_FILES then emptyHandle else s.handles i
    let s1 := { s with
                isOn := true, files := files', handles := handles',
                nbHandles := 0,
                freeFrameNr := getFreeFrame files',
                nbFiles := getNbFiles files' }
    let r := init_block_cache s1.bcache
    if r.1 = -1 then (-1, s1) else (0, { s1 with bcache := r.2 })

/-- `block_poweroff`: fail if not on; otherwise shut the cache down,
write each file-table entry back to its metadata frame, issue `POWOFF`,
close all handles, and zero the counters.  Note: the source never resets
`isOn`. -/
def block_poweroff (s : DriverState) : Int × DriverState :=
  if !s.isOn then (-1, s)
  else
    let r := close_block_cache s.bcache
    if r.1 = -1 then (-1, s)
    else
      let dev' := fun i =>
        if i < BLOCK_MAX_TOTAL_FILES then DFrame.meta (s.files i) else s.device i
      (0, { s with
            bcache := r.2, device := dev',
            handles := closeAllFiles s.handles,
            nbFiles := 0, nbHandles := 0, freeFrameNr := 0 })

/-- The name comparison in `block_open`:
`memcmp(files[i].name, path, strlen(path)) == 0`, i.e. only the first
`path.length` bytes of the stored name (in its zero-padded fixed array)
are compared against the query. -/
def nameMatches (path name : List Byte) : Bool :=
  (List.range path.length).all (fun k => name.getD k 0 == path.getD k 0)

/-- The `while (i < nbFiles && !found)` scan of `block_open`, returning
the first matching file-table index. -/
def findFileAux (fs : Nat → FileT) (path : List Byte) :
    Nat → Nat → Option Nat
  | _, 0 => none
  | i, k + 1 =>
      if nameMatches path (fs i).name then some i
      else findFileAux fs path (i + 1) k

/-- `block_open`: fail if the device is off; linear-search the file table
for a name match; create the file at slot `nbFiles` if absent; bind a new
handle at slot `nbHandles` and return its index. -/
def block_open (s : DriverState) (path : List Byte) : Int × DriverState :=
  if !s.isOn then (-1, s)
  else
    let found := findFileAux s.files path 0 s.nbFiles
    let i := found.getD s.nbFiles
    let s1 := match found with
      | some _ => s
      | none => { s with
                  files := updFun s.files s.nbFiles (createNewFile path),
                  nbFiles := s.nbFiles + 1 }
    ((s.nbHandles : Int),
     { s1 with
       handles := updFun s1.handles s.nbHandles (openFile i),
       nbHandles := s.nbHandles + 1 })

/-- `block_close`: fail if the device is off or the handle is closed;
otherwise mark the handle closed. -/
def block_close (s : DriverState) (fd : Nat) : Int × DriverState :=
  if !s.isOn then (-1, s)
  else if (s.handles fd).status = false then (-1, s)
  else (0, { s with handles := updFun s.handles fd (closeFile (s.handles fd)) })

/-- `block_read`: fail if the device is off or the handle is closed;
clamp the requested count to the bytes remaining before end-of-file
(`if (fileSize - loc < count) count = fileSize - loc`, here in truncated
`Nat` subtraction, equivalent whenever `loc ≤ fileSize`); run the read
loop; store the final cursor; return the clamped count and the bytes
copied out. -/
def block_read (s : DriverState) (fd : Nat) (count : Nat) :
    Int × List Byte × DriverState :=
  if !s.isOn then (-1, [], s)
  else if (s.handles fd).status = false then (-1, [], s)
  else
    let file := s.files (s.handles fd).file
    let loc := (s.handles fd).loc
    let cnt := if file.size - loc < count then file.size - loc else count
    let r := readLoop s.device file.frames cnt loc cnt s.bcache
    ((cnt : Int), r.1,
     { s with
       bcache := r.2.2,
       handles := updFun s.handles fd { s.handles fd with loc := r.2.1 } })

/-- `block_write`: fail if the handle is closed (the source performs no
power check here); extend the file's frame list to cover
`cursor + count`; run the write loop; store the final cursor; grow
`file->size` to the final cursor if it increased; return `count`. -/
def block_write (s : DriverState) (fd : Nat) (buf : FrameData) (count : Nat) :
    Int × DriverState :=
  if (s.handles fd).status = false then (-1, s)
  else
    match allocateNewFrames s fd count with
    | none => (-1, s)
    | some s1 =>
      let fidx := (s.handles fd).file
      let loc := (s.handles fd).loc
      let w := writeLoop (s1.files fidx).frames buf count loc 0 count
                 s1.device s1.bcache
      let loc' := w.1
      ((count : Int),
       { s1 with
         device := w.2.1, bcache := w.2.2,
         handles := updFun s1.handles fd { s1.handles fd with loc := loc' },
         files :=
           if (s1.files fidx).size < loc' then
             updFun s1.files fidx { s1.files fidx with size := loc' }
           else s1.files })

/-- `block_seek`: fail if the handle is closed or the position exceeds
the file size (the source performs no power check here); otherwise set
the cursor. -/
def block_seek (s : DriverState) (fd : Nat) (loc : Nat) : Int × DriverState :=
  if (s.handles fd).status = false || (s.files (s.handles fd).file).size < loc
  then (-1, s)
  else (0, { s with handles := updFun s.handles fd { s.handles fd with loc := loc } })

/-! ### Initial state and reachability -/

/-- `DEFAULT_BLOCK_FRAME_CACHE_SIZE` (header not in the repository
sources; the concrete value is irrelevant to the theorems). -/
def DEFAULT_BLOCK_FRAME_CACHE_SIZE : Nat := 4

/-- The zero-initialized C globals at process start, with a given initial
device content. -/
def bootState (dev : Nat → DFrame) : DriverState :=
  { isOn := false, nbFiles := 0, nbHandles := 0, freeFrameNr := 0,
    files := fun _ => emptyFile, handles := fun _ => emptyHandle,
    bcache := { maxItems := DEFAULT_BLOCK_FRAME_CACHE_SIZE, cache := [],
                putTracker := 0, lastAccess := 0, cacheOn := false },
    device := dev }

/-- States reachable from process start (any initial device contents)
through the public driver operations plus the pre-init cache size
configuration. -/
inductive Reachable : DriverState → Prop where
  | boot (dev : Nat → DFrame) : Reachable (bootState dev)
  | stepSetSize (s : DriverState) (n : Nat) (h : Reachable s) :
      Reachable { s with bcache := (set_block_cache_size s.bcache n).2 }
  | stepPowerOn (s : DriverState) (h : Reachable s) :
      Reachable (block_poweron s).2
  | stepPowerOff (s : DriverState) (h : Reachable s) :
      Reachable (block_poweroff s).2
  | stepOpen (s : DriverState) (path : List Byte) (h : Reachable s) :
      Reachable (block_open s path).2
  | stepClose (s : DriverState) (fd : Nat) (h : Reachable s) :
      Reachable (block_close s fd).2
  | stepRead (s : DriverState) (fd count : Nat) (h : Reachable s) :
      Reachable (block_read s fd count).2.2
  | stepWrite (s : DriverState) (fd : Nat) (buf : FrameData) (count : Nat)
      (h : Reachable s) : Reachable (block_write s fd buf count).2
  | stepSeek (s : DriverState) (fd loc : Nat) (h : Reachable s) :
      Reachable (block_seek s fd loc).2

/-! ### Basic lemmas about list access and the cache scans -/

/-- Coherence of an entry array with the device: every valid entry
(frame number not the `-1` sentinel) holds exactly the device's current
contents for its frame, on all in-frame indices. -/
def CoherentL (l : List cacheEntry) (dev : Nat → DFrame) : Prop :=
  ∀ i, i < l.length → 0 ≤ (entryAt l i).frm →
    ∀ j, j < BLOCK_FRAME_SIZE →
      (entryAt l i).cacheFrame j = frameBytes (dev (entryAt l i).frm.toNat) j

/-- No frame number occupies two distinct slots of an entry array (the
`-1` sentinel may repeat). -/
def NodupL (l : List cacheEntry) : Prop :=
  ∀ i j, i < l.length → j < l.length → i ≠ j →
    (entryAt l i).frm = (entryAt l j).frm → (entryAt l i).frm = -1

/-- Every valid cache entry holds exactly the device's current contents
for its frame.  Since every driver write goes to the device
unconditionally, the device frame is "the most recent write issued" for
that frame. -/
def CacheCoherent (c : CacheState) (dev : Nat → DFrame) : Prop :=
  CoherentL c.cache dev

/-- No frame number occupies two distinct cache slots. -/
def CacheNodup (c : CacheState) : Prop :=
  NodupL c.cache

/-- The combined cache invariant used throughout: coherence, no
duplicate frame numbers, and an empty entry array while the cache is off
(`close_block_cache` frees the array). -/
def CacheInv (c : CacheState) (dev : Nat → DFrame) : Prop :=
  CacheCoherent c dev ∧ CacheNodup c ∧ (c.cacheOn = false → c.cache = [])

/-- Specification of the read loop at a given fuel: the cache invariant
is preserved, the output has exactly `remaining` bytes, and byte `k` of
the output is the device's byte at absolute position `loc + k` of the
file's frame sequence. -/
def ReadSpec (dev : Nat → DFrame) (frames : List Nat) (fuel : Nat) : Prop :=
  ∀ loc rem : Nat, ∀ c : CacheState, rem ≤ fuel → CacheInv c dev →
    CacheInv (readLoop dev frames fuel loc rem c).2.2 dev ∧
    (readLoop dev frames fuel loc rem c).1.length = rem ∧
    (∀ k, k < rem → (readLoop dev frames fuel loc rem c).1.getD k 0 =
      frameBytes (dev (frames.getD ((loc + k) / BLOCK_FRAME_SIZE) 0))
        ((loc + k) % BLOCK_FRAME_SIZE))

/-- Specification of the write loop at a given fuel: after the loop,
every absolute position in `[loc, loc + remaining)` holds the
corresponding caller byte on the device, provided the frame-list entries
covering the range are pairwise distinct. -/
def WriteSpec (frames : List Nat) (buf : FrameData) (fuel : Nat) : Prop :=
  ∀ loc bufOff rem : Nat, ∀ dev : Nat → DFrame, ∀ c : CacheState,
    rem ≤ fuel →
    (∀ i j, loc / BLOCK_FRAME_SIZE ≤ i → i < j →
      j * BLOCK_FRAME_SIZE < loc + rem →
      frames.getD i 0 ≠ frames.getD j 0) →
    ∀ k, k < rem →
      frameBytes ((writeLoop frames buf fuel loc bufOff rem dev c).2.1
          (frames.getD ((loc + k) / BLOCK_FRAME_SIZE) 0))
        ((loc + k) % BLOCK_FRAME_SIZE) = buf (bufOff + k)

/-- The process-wide invariant maintained by every driver operation:
the cache is coherent with the device, holds no duplicate frame, is
empty while off, and no handle is open while the power flag is off. -/
def DriverInv (s : DriverState) : Prop :=
  CacheInv s.bcache s.device ∧
  (s.isOn = false → ∀ h, (s.handles h).status = false)

/-- Cache globals as configured by `set_block_cache_size C` at boot,
before `init_block_cache`. -/
def cfgCache (C : Nat) : CacheState :=
  { maxItems := C, cache := [], putTracker := 0, lastAccess := 0,
    cacheOn := false }

/-- A sequence of `put_block_cache` calls, one per frame number, as
issued by a driver-level first read (miss, then put) or write of each
frame. -/
def putSeq (c : CacheState) (fs : List Nat) (dat : Nat → FrameData) :
    CacheState :=
  fs.foldl (fun (c : CacheState) (f : Nat) => (put_block_cache c 0 (f : Int) (dat f)).2) c

/-- The cache entries created by filling an empty cache with the given
frames in order: slot `i` holds the `i`-th frame with access stamp
`base + i + 1`. -/
def entriesOf (dat : Nat → FrameData) : List Nat → Nat → List cacheEntry
  | [], _ => []
  | f :: t, base =>
      { block := 0, frm := (f : Int), access := base + 1,
        cacheFrame := dat f } :: entriesOf dat t (base + 1)

/-- The cache state after filling a fresh capacity-`C` cache with
`done` distinct frames (`done.length ≤ C`). -/
def mkFilled (C : Nat) (dat : Nat → FrameData) (done : List Nat) :
    CacheState :=
  { maxItems := C,
    cache := entriesOf dat done 0 ++
      List.replicate (C - done.length) emptyEntry,
    putTracker := done.length, lastAccess := done.length, cacheOn := true }

/-- A boot device whose metadata frames are all empty (zeroed media). -/
def bootDevEmpty : Nat → DFrame := fun _ => DFrame.meta emptyFile

/-- State after powering on from zeroed media. -/
def c6s1 : DriverState := (block_poweron (bootState bootDevEmpty)).2

/-- ... then opening file "a" (handle 0). -/
def c6s2 : DriverState := (block_open c6s1 [97]).2

/-- ... then writing one byte through handle 0. -/
def c6s3 : DriverState := (block_write c6s2 0 (fun _ => 120) 1).2

/-- ... then powering off. -/
def c6s4 : DriverState := (block_poweroff c6s3).2

/-- A demonstration device (zeroed media). -/
def demoDev : Nat → DFrame := fun _ => DFrame.meta emptyFile

/-- A freshly initialized two-slot cache. -/
def demoCache : CacheState :=
  { maxItems := 2, cache := List.replicate 2 emptyEntry, putTracker := 0,
    lastAccess := 0, cacheOn := true }

/-- A powered-on demonstration state: one file "a" of size 10 stored in
frame 8, one open handle on it with the cursor at 0. -/
def demoState : DriverState :=
  { isOn := true, nbFiles := 1, nbHandles := 1, freeFrameNr := 9,
    files := updFun (fun _ => emptyFile) 0
      { name := [97], size := 10, frames := [8] },
    handles := updFun (fun _ => emptyHandle) 0
      { file := 0, loc := 0, status := true },
    bcache := demoCache, device := demoDev }

/-- A demonstration write buffer. -/
def demoBuf : FrameData := fun i => (100 + i) % 256

/-- Demonstration frame contents indexed by frame number. -/
def demoDat : Nat → FrameData := fun f _ => f % 256

/-- A full two-slot cache holding frames 5 and 6. -/
def c2demo : CacheState := mkFilled 2 demoDat [5, 6]

/-! ### Theorems -/

theorem entryAt_cons_zero (e : cacheEntry) (t : List cacheEntry) :
    entryAt (e :: t) 0 = e := rfl

theorem entryAt_cons_succ (e : cacheEntry) (t : List cacheEntry) (i : Nat) :
    entryAt (e :: t) (i + 1) = entryAt t i := rfl

theorem entryAt_set_self : ∀ (l : List cacheEntry) (i : Nat) (v : cacheEntry),
    i < l.length → entryAt (l.set i v) i = v
  | [], i, v, h => absurd h (by simp)
  | _ :: _, 0, v, _ => rfl
  | e :: t, i + 1, v, h =>
      entryAt_set_self t i v (Nat.lt_of_succ_lt_succ (by simpa using h))

theorem entryAt_set_ne : ∀ (l : List cacheEntry) (i j : Nat) (v : cacheEntry),
    j ≠ i → entryAt (l.set i v) j = entryAt l j
  | [], _, _, _, _ => rfl
  | _ :: _, 0, 0, _, h => absurd rfl h
  | _ :: _, 0, _ + 1, _, _ => rfl
  | _ :: _, _ + 1, 0, _, _ => rfl
  | _ :: t, i + 1, j + 1, v, h =>
      entryAt_set_ne t i j v (fun hji => h (by omega))

theorem findFrm_some : ∀ (l : List cacheEntry) (f : Int) (i : Nat),
    findFrm l f = some i → i < l.length ∧ (entryAt l i).frm = f := by
  intro l
  induction l with
  | nil => intro f i h; simp [findFrm] at h
  | cons e t ih =>
      intro f i h
      by_cases he : e.frm = f
      · simp [findFrm, he] at h
        subst h
        exact ⟨Nat.succ_pos _, he⟩
      · simp [findFrm, he] at h
        obtain ⟨i', hi', rfl⟩ := h
        obtain ⟨h1, h2⟩ := ih f i' hi'
        exact ⟨by simpa using Nat.succ_lt_succ h1, by simpa [entryAt_cons_succ] using h2⟩

theorem findFrm_none : ∀ (l : List cacheEntry) (f : Int),
    findFrm l f = none → ∀ i, i < l.length → (entryAt l i).frm ≠ f := by
  intro l
  induction l with
  | nil => intro f _ i h; simp at h
  | cons e t ih =>
      intro f h i hi
      by_cases he : e.frm = f
      · simp [findFrm, he] at h
      · simp [findFrm, he] at h
        match i with
        | 0 => simpa [entryAt_cons_zero] using he
        | i + 1 =>
            exact ih f h i (Nat.lt_of_succ_lt_succ (by simpa using hi))

/-! ### Cache invariants -/

theorem get_of_findFrm_none (c : CacheState) (blk : Nat) (f : Int)
    (h : findFrm c.cache f = none) : get_block_cache c blk f = (none, c) := by
  simp [get_block_cache, h]

/-- `get_block_cache` changes only the `access` stamp of the hit entry:
frame numbers, contents, length, and all other cache fields survive. -/
theorem get_cache_fields (c : CacheState) (blk : Nat) (f : Int) :
    (get_block_cache c blk f).2.cache.length = c.cache.length ∧
    (∀ k, (entryAt (get_block_cache c blk f).2.cache k).frm =
            (entryAt c.cache k).frm ∧
          (entryAt (get_block_cache c blk f).2.cache k).cacheFrame =
            (entryAt c.cache k).cacheFrame) ∧
    (get_block_cache c blk f).2.cacheOn = c.cacheOn ∧
    (get_block_cache c blk f).2.maxItems = c.maxItems ∧
    (get_block_cache c blk f).2.putTracker = c.putTracker := by
  unfold get_block_cache
  cases h : findFrm c.cache f with
  | none => simp
  | some i =>
      refine ⟨by simp, fun k => ?_, by simp, by simp, by simp⟩
      by_cases hk : k = i
      · subst hk
        rw [entryAt_set_self _ _ _ (findFrm_some _ _ _ h).1]
        exact ⟨rfl, rfl⟩
      · rw [entryAt_set_ne _ _ _ _ hk]
        exact ⟨rfl, rfl⟩

theorem get_inv (c : CacheState) (dev : Nat → DFrame) (blk : Nat) (f : Int)
    (h : CacheInv c dev) : CacheInv (get_block_cache c blk f).2 dev := by
  obtain ⟨hco, hnd, hoff⟩ := h
  obtain ⟨hlen, hfields, hon, -⟩ := get_cache_fields c blk f
  refine ⟨?_, ?_, ?_⟩
  · intro i hi hpos j hj
    rw [(hfields i).1, (hfields i).2]
    exact hco i (hlen ▸ hi) ((hfields i).1 ▸ hpos) j hj
  · intro i j hi hj hij
    rw [(hfields i).1, (hfields j).1]
    exact hnd i j (hlen ▸ hi) (hlen ▸ hj) hij
  · intro hco'
    have hempty : c.cache = [] := hoff (hon ▸ hco')
    have : findFrm c.cache f = none := by rw [hempty]; rfl
    rw [get_of_findFrm_none c blk f this]
    exact hempty

/-- A cache hit on a coherent cache returns the device's current frame
contents — a hit never serves stale data. -/
theorem get_hit_coherent (c : CacheState) (dev : Nat → DFrame) (blk F : Nat)
    (fr : FrameData) (h : CacheCoherent c dev)
    (hget : (get_block_cache c blk (F : Int)).1 = some fr) :
    ∀ j, j < BLOCK_FRAME_SIZE → fr j = frameBytes (dev F) j := by
  unfold get_block_cache at hget
  cases hfind : findFrm c.cache (F : Int) with
  | none => rw [hfind] at hget; simp at hget
  | some i =>
      rw [hfind] at hget
      simp at hget
      obtain ⟨hi, hfrm⟩ := findFrm_some _ _ _ hfind
      intro j hj
      have h0 : (0 : Int) ≤ (entryAt c.cache i).frm := by
        rw [hfrm]; exact Int.natCast_nonneg F
      have := h i hi h0 j hj
      rw [hget] at this
      rw [this, hfrm]
      simp

theorem coherentL_set_new (l : List cacheEntry) (dev dev' : Nat → DFrame)
    (blk F la : Nat) (buf : FrameData) (m : Nat)
    (hco : CoherentL l dev)
    (habs : ∀ i, i < l.length → (entryAt l i).frm ≠ (F : Int))
    (hbuf : ∀ j, j < BLOCK_FRAME_SIZE → buf j = frameBytes (dev' F) j)
    (hdev : ∀ G : Nat, G ≠ F → dev' G = dev G) :
    CoherentL (l.set m ⟨blk, (F : Int), la, buf⟩) dev' := by
  intro i hi hpos j hj
  rw [List.length_set] at hi
  by_cases him : i = m
  · subst him
    rw [entryAt_set_self _ _ _ hi]
    simpa using hbuf j hj
  · rw [entryAt_set_ne _ _ _ _ him] at hpos ⊢
    have hG : (entryAt l i).frm.toNat ≠ F := by
      intro hEq
      exact habs i hi (by rw [← hEq, Int.toNat_of_nonneg hpos])
    rw [hdev _ hG]
    exact hco i hi hpos j hj

theorem nodupL_set_new (l : List cacheEntry) (blk F la : Nat)
    (buf : FrameData) (m : Nat) (hnd : NodupL l)
    (habs : ∀ i, i < l.length → (entryAt l i).frm ≠ (F : Int)) :
    NodupL (l.set m ⟨blk, (F : Int), la, buf⟩) := by
  intro i j hi hj hij heq
  rw [List.length_set] at hi hj
  by_cases him : i = m
  · subst him
    rw [entryAt_set_self _ _ _ hi] at heq ⊢
    rw [entryAt_set_ne _ _ _ _ (by omega)] at heq
    exact absurd heq.symm (habs j hj)
  · rw [entryAt_set_ne _ _ _ _ him] at heq ⊢
    by_cases hjm : j = m
    · subst hjm
      rw [entryAt_set_self _ _ _ hj] at heq
      exact absurd heq (habs i hi)
    · rw [entryAt_set_ne _ _ _ _ hjm] at heq
      exact hnd i j hi hj hij heq

theorem entryAt_set_upd_frm (l : List cacheEntry) (i m a : Nat)
    (b : FrameData) (hm : m < l.length) :
    (entryAt (l.set i { entryAt l i with access := a, cacheFrame := b }) m).frm
      = (entryAt l m).frm := by
  by_cases hmi : m = i
  · subst hmi; rw [entryAt_set_self _ _ _ hm]
  · rw [entryAt_set_ne _ _ _ _ hmi]

/-- The central write-through lemma: putting a buffer for frame `F` into
a coherent cache preserves the invariant, for any device `dev'` that
agrees with `dev` off `F` and whose frame `F` matches the buffer.
Instantiated with `dev' = dev` for read-misses and with the updated
device for writes (device written, then cache written: write-through). -/
theorem put_inv (c : CacheState) (dev dev' : Nat → DFrame) (blk F : Nat)
    (buf : FrameData) (hInv : CacheInv c dev)
    (hbuf : ∀ j, j < BLOCK_FRAME_SIZE → buf j = frameBytes (dev' F) j)
    (hdev : ∀ G : Nat, G ≠ F → dev' G = dev G) :
    CacheInv (put_block_cache c blk (F : Int) buf).2 dev' := by
  obtain ⟨hco, hnd, hoff⟩ := hInv
  by_cases hon : c.cacheOn = true
  · unfold put_block_cache
    rw [hon]
    simp only [Bool.not_true, Bool.false_eq_true, if_false]
    cases hfind : findFrm c.cache ((F : Nat) : Int) with
    | none =>
        have habs := findFrm_none _ _ hfind
        by_cases hpt : c.putTracker < c.maxItems
        · simp only [hfind, hpt, if_true]
          exact ⟨coherentL_set_new _ dev dev' _ _ _ _ _ hco habs hbuf hdev,
                 nodupL_set_new _ _ _ _ _ _ hnd habs,
                 fun hoffc => by simp at hoffc⟩
        · simp only [hfind, hpt, if_false]
          exact ⟨coherentL_set_new _ dev dev' _ _ _ _ _ hco habs hbuf hdev,
                 nodupL_set_new _ _ _ _ _ _ hnd habs,
                 fun hoffc => by simp at hoffc⟩
    | some i =>
        simp only [hfind]
        obtain ⟨hilen, hifrm⟩ := findFrm_some _ _ _ hfind
        refine ⟨?_, ?_, fun hoffc => by simp at hoffc⟩
        · intro k hk hkpos j hj
          rw [List.length_set] at hk
          by_cases hki : k = i
          · subst hki
            rw [entryAt_set_self _ _ _ hk]
            rw [entryAt_set_self _ _ _ hk] at hkpos
            show buf j = frameBytes (dev' (entryAt c.cache k).frm.toNat) j
            rw [hifrm]
            simpa using hbuf j hj
          · rw [entryAt_set_ne _ _ _ _ hki] at hkpos ⊢
            have hG : (entryAt c.cache k).frm.toNat ≠ F := by
              intro hEq
              have hkF : (entryAt c.cache k).frm = ((F : Nat) : Int) := by
                rw [← hEq, Int.toNat_of_nonneg hkpos]
              have := hnd k i hk hilen hki (by rw [hkF, hifrm])
              rw [hkF] at this
              omega
            rw [hdev _ hG]
            exact hco k hk hkpos j hj
        · intro k j hk hj hkj heq
          rw [List.length_set] at hk hj
          rw [entryAt_set_upd_frm _ _ _ _ _ hk, entryAt_set_upd_frm _ _ _ _ _ hj]
            at heq
          rw [entryAt_set_upd_frm _ _ _ _ _ hk]
          exact hnd k j hk hj hkj heq
  · have hcon : c.cacheOn = false := by simpa using hon
    have hempty := hoff hcon
    unfold put_block_cache
    rw [hcon]
    simp only [Bool.not_false, if_true]
    exact ⟨fun i hi => absurd hi (by rw [hempty]; simp), hnd, fun _ => hempty⟩

/-! ### Loop lemmas -/

theorem frame_offset_lt (loc : Nat) : loc % BLOCK_FRAME_SIZE < BLOCK_FRAME_SIZE :=
  Nat.mod_lt loc (by norm_num [BLOCK_FRAME_SIZE])

/-- The read loop advances the cursor by exactly the remaining count
(every iteration consumes at least one byte, so `remaining` fuel
suffices). -/
theorem readLoop_adv (dev : Nat → DFrame) (frames : List Nat) :
    ∀ fuel loc rem : Nat, ∀ c : CacheState, rem ≤ fuel →
      (readLoop dev frames fuel loc rem c).2.1 = loc + rem := by
  intro fuel
  induction fuel with
  | zero =>
      intro loc rem c h
      have : rem = 0 := Nat.le_zero.mp h
      subst this
      simp [readLoop]
  | succ n ih =>
      intro loc rem c h
      by_cases hrem : rem = 0
      · subst hrem; simp [readLoop]
      · rw [readLoop]
        simp only [if_neg hrem]
        have hoff := frame_offset_lt loc
        cases hg : (get_block_cache c 0
            ((frames.getD (loc / BLOCK_FRAME_SIZE) 0 : Nat) : Int)).1 with
        | none =>
            simp only [hg]
            by_cases hbig : BLOCK_FRAME_SIZE - loc % BLOCK_FRAME_SIZE > rem
            · simp only [if_pos hbig]
              rw [ih _ _ _ (by omega)]
              omega
            · simp only [if_neg hbig]
              rw [ih _ _ _ (by omega)]
              omega
        | some f =>
            simp only [hg]
            by_cases hbig : BLOCK_FRAME_SIZE - loc % BLOCK_FRAME_SIZE > rem
            · simp only [if_pos hbig]
              rw [ih _ _ _ (by omega)]
              omega
            · simp only [if_neg hbig]
              rw [ih _ _ _ (by omega)]
              omega

/-- The write loop advances the cursor by exactly the remaining count. -/
theorem writeLoop_adv (frames : List Nat) (buf : FrameData) :
    ∀ fuel loc bufOff rem : Nat, ∀ dev : Nat → DFrame, ∀ c : CacheState,
      rem ≤ fuel →
      (writeLoop frames buf fuel loc bufOff rem dev c).1 = loc + rem := by
  intro fuel
  induction fuel with
  | zero =>
      intro loc bufOff rem dev c h
      have : rem = 0 := Nat.le_zero.mp h
      subst this
      simp [writeLoop]
  | succ n ih =>
      intro loc bufOff rem dev c h
      by_cases hrem : rem = 0
      · subst hrem; simp [writeLoop]
      · rw [writeLoop]
        simp only [if_neg hrem]
        have hoff := frame_offset_lt loc
        cases hg : (get_block_cache c 0
            ((frames.getD (loc / BLOCK_FRAME_SIZE) 0 : Nat) : Int)).1 with
        | none =>
            simp only [hg]
            by_cases hbig : BLOCK_FRAME_SIZE - loc % BLOCK_FRAME_SIZE > rem
            · simp only [if_pos hbig]
              rw [ih _ _ _ _ _ (by omega)]
              omega
            · simp only [if_neg hbig]
              rw [ih _ _ _ _ _ (by omega)]
              omega
        | some f =>
            simp only [hg]
            by_cases hbig : BLOCK_FRAME_SIZE - loc % BLOCK_FRAME_SIZE > rem
            · simp only [if_pos hbig]
              rw [ih _ _ _ _ _ (by omega)]
              omega
            · simp only [if_neg hbig]
              rw [ih _ _ _ _ _ (by omega)]
              omega

theorem readChunk_length (fr : FrameData) (off len : Nat) :
    (readChunk fr off len).length = len := by
  simp [readChunk]

theorem readChunk_getD (fr : FrameData) (off len k : Nat) (hk : k < len) :
    (readChunk fr off len).getD k 0 = fr (off + k) := by
  simp [readChunk, List.getD_eq_getElem?_getD, List.getElem?_map,
        List.getElem?_range hk]

theorem getD_append_left {α : Type} (a b : List α) (k : Nat) (d : α)
    (h : k < a.length) : (a ++ b).getD k d = a.getD k d := by
  simp [List.getD_eq_getElem?_getD, List.getElem?_append_left h]

theorem getD_append_right {α : Type} (a b : List α) (k : Nat) (d : α)
    (h : a.length ≤ k) : (a ++ b).getD k d = b.getD (k - a.length) d := by
  simp [List.getD_eq_getElem?_getD, List.getElem?_append_right h]

theorem get_miss (c : CacheState) (blk : Nat) (f : Int)
    (h : (get_block_cache c blk f).1 = none) :
    (get_block_cache c blk f).2 = c := by
  unfold get_block_cache at h ⊢
  cases hfind : findFrm c.cache f with
  | none => simp
  | some i => rw [hfind] at h; simp at h

theorem readLoop_cont (dev : Nat → DFrame) (frames : List Nat)
    (n loc rem : Nat) (frame : FrameData) (c2 : CacheState) (ds : Nat)
    (hrem : rem ≠ 0) (h : rem ≤ n + 1)
    (hds : ds = if BLOCK_FRAME_SIZE - loc % BLOCK_FRAME_SIZE > rem then rem
                else BLOCK_FRAME_SIZE - loc % BLOCK_FRAME_SIZE)
    (hframe : ∀ j, j < BLOCK_FRAME_SIZE →
      frame j = frameBytes (dev (frames.getD (loc / BLOCK_FRAME_SIZE) 0)) j)
    (hInv2 : CacheInv c2 dev) (ih : ReadSpec dev frames n) :
    CacheInv (readLoop dev frames n (loc + ds) (rem - ds) c2).2.2 dev ∧
    (readChunk frame (loc % BLOCK_FRAME_SIZE) ds ++
      (readLoop dev frames n (loc + ds) (rem - ds) c2).1).length = rem ∧
    (∀ k, k < rem →
      (readChunk frame (loc % BLOCK_FRAME_SIZE) ds ++
        (readLoop dev frames n (loc + ds) (rem - ds) c2).1).getD k 0 =
      frameBytes (dev (frames.getD ((loc + k) / BLOCK_FRAME_SIZE) 0))
        ((loc + k) % BLOCK_FRAME_SIZE)) := by
  have hoff := frame_offset_lt loc
  have hdsb : 1 ≤ ds ∧ ds ≤ rem ∧
      loc % BLOCK_FRAME_SIZE + ds ≤ BLOCK_FRAME_SIZE := by
    by_cases hbig : BLOCK_FRAME_SIZE - loc % BLOCK_FRAME_SIZE > rem
    · rw [hds, if_pos hbig]; omega
    · rw [hds, if_neg hbig]; omega
  obtain ⟨hInvr, hlenr, hgetr⟩ := ih (loc + ds) (rem - ds) c2 (by omega) hInv2
  refine ⟨hInvr, ?_, ?_⟩
  · rw [List.length_append, readChunk_length, hlenr]; omega
  · intro k hk
    by_cases hkds : k < ds
    · rw [getD_append_left _ _ _ _ (by rw [readChunk_length]; exact hkds)]
      rw [readChunk_getD _ _ _ _ hkds]
      have hk2 : loc % BLOCK_FRAME_SIZE + k < BLOCK_FRAME_SIZE := by omega
      have h1 : (loc + k) / BLOCK_FRAME_SIZE = loc / BLOCK_FRAME_SIZE := by
        simp only [BLOCK_FRAME_SIZE] at hk2 ⊢; omega
      have h2 : (loc + k) % BLOCK_FRAME_SIZE = loc % BLOCK_FRAME_SIZE + k := by
        simp only [BLOCK_FRAME_SIZE] at hk2 ⊢; omega
      rw [h1, h2]
      exact hframe _ hk2
    · rw [getD_append_right _ _ _ _ (by rw [readChunk_length]; omega)]
      rw [readChunk_length]
      have hrec := hgetr (k - ds) (by omega)
      have heq : loc + ds + (k - ds) = loc + k := by omega
      rw [heq] at hrec
      exact hrec

theorem readLoop_content (dev : Nat → DFrame) (frames : List Nat) :
    ∀ fuel, ReadSpec dev frames fuel := by
  intro fuel
  induction fuel with
  | zero =>
      intro loc rem c h hInv
      have h0 : rem = 0 := Nat.le_zero.mp h
      subst h0
      exact ⟨by simpa [readLoop] using hInv, by simp [readLoop],
             fun k hk => absurd hk (by omega)⟩
  | succ n ih =>
      intro loc rem c h hInv
      by_cases hrem : rem = 0
      · subst hrem
        exact ⟨by simpa [readLoop] using hInv, by simp [readLoop],
               fun k hk => absurd hk (by omega)⟩
      · rw [readLoop]
        simp only [if_neg hrem]
        cases hg : (get_block_cache c 0
            ((frames.getD (loc / BLOCK_FRAME_SIZE) 0 : Nat) : Int)).1 with
        | none =>
            simp only [hg]
            rw [get_miss _ _ _ hg]
            exact readLoop_cont dev frames n loc rem _ _ _ hrem h rfl
              (fun j hj => rfl)
              (put_inv c dev dev 0 _ _ hInv (fun j hj => rfl) (fun G hG => rfl))
              ih
        | some f =>
            simp only [hg]
            exact readLoop_cont dev frames n loc rem _ _ _ hrem h rfl
              (get_hit_coherent c dev 0 _ f hInv.1 hg)
              (get_inv c dev 0 _ hInv)
              ih

theorem writeLoop_rem_zero (frames : List Nat) (buf : FrameData)
    (fuel loc bufOff : Nat) (dev : Nat → DFrame) (c : CacheState) :
    writeLoop frames buf fuel loc bufOff 0 dev c = (loc, dev, c) := by
  cases fuel <;> simp [writeLoop]

/-- The write loop maintains cache/device coherence: each iteration
writes the modified frame to the device and then puts the same frame
into the cache (write-through). -/
theorem writeLoop_inv (frames : List Nat) (buf : FrameData) :

    ∀ fuel loc bufOff rem : Nat, ∀ dev : Nat → DFrame, ∀ c : CacheState,
      rem ≤ fuel → CacheInv c dev →
      CacheInv (writeLoop frames buf fuel loc bufOff rem dev c).2.2
        (writeLoop frames buf fuel loc bufOff rem dev c).2.1 := by
  intro fuel
  induction fuel with
  | zero =>
      intro loc bufOff rem dev c h hInv
      have h0 : rem = 0 := Nat.le_zero.mp h
      subst h0
      simpa [writeLoop] using hInv
  | succ n ih =>
      intro loc bufOff rem dev c h hInv
      by_cases hrem : rem = 0
      · subst hrem; simpa [writeLoop] using hInv
      · rw [writeLoop]
        simp only [if_neg hrem]
        have hoff := frame_offset_lt loc
        cases hg : (get_block_cache c 0
            ((frames.getD (loc / BLOCK_FRAME_SIZE) 0 : Nat) : Int)).1 with
        | none =>
            simp only [hg]
            refine ih _ _ _ _ _ ?_ ?_
            · by_cases hbig : BLOCK_FRAME_SIZE - loc % BLOCK_FRAME_SIZE > rem
              · simp only [if_pos hbig]; omega
              · simp only [if_neg hbig]; omega
            · refine put_inv _ dev _ 0 _ _ (get_inv c dev 0 _ hInv) ?_ ?_
              · intro j hj; simp [updFun, frameBytes]
              · intro G hG; simp only [updFun]; rw [if_neg hG]
        | some f =>
            simp only [hg]
            refine ih _ _ _ _ _ ?_ ?_
            · by_cases hbig : BLOCK_FRAME_SIZE - loc % BLOCK_FRAME_SIZE > rem
              · simp only [if_pos hbig]; omega
              · simp only [if_neg hbig]; omega
            · refine put_inv _ dev _ 0 _ _ (get_inv c dev 0 _ hInv) ?_ ?_
              · intro j hj; simp [updFun, frameBytes]
              · intro G hG; simp only [updFun]; rw [if_neg hG]
/-- Frames whose numbers do not occur among the frame-list entries
covering `[loc, loc + rem)` keep their device contents across the write
loop. -/
theorem writeLoop_untouched (frames : List Nat) (buf : FrameData) :
    ∀ fuel loc bufOff rem : Nat, ∀ dev : Nat → DFrame, ∀ c : CacheState,
      ∀ F : Nat, rem ≤ fuel →
      (∀ i, loc / BLOCK_FRAME_SIZE ≤ i → i * BLOCK_FRAME_SIZE < loc + rem →
        frames.getD i 0 ≠ F) →
      (writeLoop frames buf fuel loc bufOff rem dev c).2.1 F = dev F := by
  intro fuel
  induction fuel with
  | zero =>
      intro loc bufOff rem dev c F h habs
      have h0 : rem = 0 := Nat.le_zero.mp h
      subst h0
      simp [writeLoop]
  | succ n ih =>
      intro loc bufOff rem dev c F h habs
      by_cases hrem : rem = 0
      · subst hrem; simp [writeLoop]
      · rw [writeLoop]
        simp only [if_neg hrem]
        have hoff := frame_offset_lt loc
        have hF0 : frames.getD (loc / BLOCK_FRAME_SIZE) 0 ≠ F := by
          refine habs _ (Nat.le_refl _) ?_
          have := Nat.div_mul_le_self loc BLOCK_FRAME_SIZE
          omega
        have hFne : F ≠ frames.getD (loc / BLOCK_FRAME_SIZE) 0 := Ne.symm hF0
        by_cases hbig : BLOCK_FRAME_SIZE - loc % BLOCK_FRAME_SIZE > rem
        · simp only [if_pos hbig]
          have hz : rem - rem = 0 := by omega
          cases hg : (get_block_cache c 0
              ((frames.getD (loc / BLOCK_FRAME_SIZE) 0 : Nat) : Int)).1 with
          | none =>
              simp only [hg, hz, writeLoop_rem_zero]
              simp only [updFun]; rw [if_neg hFne]
          | some f =>
              simp only [hg, hz, writeLoop_rem_zero]
              simp only [updFun]; rw [if_neg hFne]
        · simp only [if_neg hbig]
          have habs' : ∀ i,
              (loc + (BLOCK_FRAME_SIZE - loc % BLOCK_FRAME_SIZE)) /
                BLOCK_FRAME_SIZE ≤ i →
              i * BLOCK_FRAME_SIZE <
                loc + (BLOCK_FRAME_SIZE - loc % BLOCK_FRAME_SIZE) +
                  (rem - (BLOCK_FRAME_SIZE - loc % BLOCK_FRAME_SIZE)) →
              frames.getD i 0 ≠ F := by
            intro i hi hlt
            refine habs i (le_trans (Nat.div_le_div_right
              (Nat.le_add_right loc _)) hi) ?_
            simp only [BLOCK_FRAME_SIZE] at hlt hbig hoff ⊢
            omega
          cases hg : (get_block_cache c 0
              ((frames.getD (loc / BLOCK_FRAME_SIZE) 0 : Nat) : Int)).1 with
          | none =>
              simp only [hg]
              rw [ih _ _ _ _ _ F (by omega) habs']
              simp only [updFun]; rw [if_neg hFne]
          | some f =>
              simp only [hg]
              rw [ih _ _ _ _ _ F (by omega) habs']
              simp only [updFun]; rw [if_neg hFne]

theorem memcpyRange_in (dst src : FrameData) (dOff sOff len k : Nat)
    (hk : k < len) :
    memcpyRange dst dOff src sOff len (dOff + k) = src (sOff + k) := by
  simp only [memcpyRange]
  rw [if_pos ⟨Nat.le_add_right _ _, by omega⟩]
  have h : dOff + k - dOff = k := by omega
  rw [h]

theorem writeLoop_written_step (frames : List Nat) (buf : FrameData)
    (n loc bufOff rem : Nat) (dev : Nat → DFrame) (frame : FrameData)
    (c2 : CacheState) (ihn : WriteSpec frames buf n)
    (h : rem ≤ n + 1) (hrem : rem ≠ 0)
    (hbig : ¬ BLOCK_FRAME_SIZE - loc % BLOCK_FRAME_SIZE > rem)
    (hdist : ∀ i j, loc / BLOCK_FRAME_SIZE ≤ i → i < j →
      j * BLOCK_FRAME_SIZE < loc + rem →
      frames.getD i 0 ≠ frames.getD j 0)
    (k : Nat) (hk : k < rem) :
    frameBytes ((writeLoop frames buf n
        (loc + (BLOCK_FRAME_SIZE - loc % BLOCK_FRAME_SIZE))
        (bufOff + (BLOCK_FRAME_SIZE - loc % BLOCK_FRAME_SIZE))
        (rem - (BLOCK_FRAME_SIZE - loc % BLOCK_FRAME_SIZE))
        (updFun dev (frames.getD (loc / BLOCK_FRAME_SIZE) 0)
          (DFrame.bytes (memcpyRange frame (loc % BLOCK_FRAME_SIZE) buf bufOff
            (BLOCK_FRAME_SIZE - loc % BLOCK_FRAME_SIZE)))) c2).2.1
        (frames.getD ((loc + k) / BLOCK_FRAME_SIZE) 0))
      ((loc + k) % BLOCK_FRAME_SIZE) = buf (bufOff + k) := by
  have hoff := frame_offset_lt loc
  by_cases hkds : k < BLOCK_FRAME_SIZE - loc % BLOCK_FRAME_SIZE
  · have h1 : (loc + k) / BLOCK_FRAME_SIZE = loc / BLOCK_FRAME_SIZE := by
      simp only [BLOCK_FRAME_SIZE] at hoff hkds ⊢; omega
    have h2 : (loc + k) % BLOCK_FRAME_SIZE = loc % BLOCK_FRAME_SIZE + k := by
      simp only [BLOCK_FRAME_SIZE] at hoff hkds ⊢; omega
    have hnext : (loc + (BLOCK_FRAME_SIZE - loc % BLOCK_FRAME_SIZE)) /
        BLOCK_FRAME_SIZE = loc / BLOCK_FRAME_SIZE + 1 := by
      simp only [BLOCK_FRAME_SIZE] at hoff ⊢; omega
    rw [h1, h2]
    rw [writeLoop_untouched frames buf n _ _ _ _ _ _ (by omega) ?_]
    · simp only [updFun, if_true]
      simp only [frameBytes]
      exact memcpyRange_in _ _ _ _ _ _ hkds
    · intro i hi hlt
      rw [hnext] at hi
      refine Ne.symm (hdist (loc / BLOCK_FRAME_SIZE) i (Nat.le_refl _)
        (by omega) ?_)
      simp only [BLOCK_FRAME_SIZE] at hlt hbig hoff ⊢; omega
  · have heq1 : loc + (BLOCK_FRAME_SIZE - loc % BLOCK_FRAME_SIZE) +
        (k - (BLOCK_FRAME_SIZE - loc % BLOCK_FRAME_SIZE)) = loc + k := by
      omega
    have heq2 : bufOff + (BLOCK_FRAME_SIZE - loc % BLOCK_FRAME_SIZE) +
        (k - (BLOCK_FRAME_SIZE - loc % BLOCK_FRAME_SIZE)) = bufOff + k := by
      omega
    have hdist' : ∀ i j,
        (loc + (BLOCK_FRAME_SIZE - loc % BLOCK_FRAME_SIZE)) /
          BLOCK_FRAME_SIZE ≤ i → i < j →
        j * BLOCK_FRAME_SIZE <
          loc + (BLOCK_FRAME_SIZE - loc % BLOCK_FRAME_SIZE) +
            (rem - (BLOCK_FRAME_SIZE - loc % BLOCK_FRAME_SIZE)) →
        frames.getD i 0 ≠ frames.getD j 0 := by
      intro i j hi hij hjlt
      refine hdist i j (le_trans (Nat.div_le_div_right
        (Nat.le_add_right loc _)) hi) hij ?_
      simp only [BLOCK_FRAME_SIZE] at hjlt hbig hoff ⊢; omega
    have := ihn (loc + (BLOCK_FRAME_SIZE - loc % BLOCK_FRAME_SIZE))
      (bufOff + (BLOCK_FRAME_SIZE - loc % BLOCK_FRAME_SIZE))
      (rem - (BLOCK_FRAME_SIZE - loc % BLOCK_FRAME_SIZE))
      (updFun dev (frames.getD (loc / BLOCK_FRAME_SIZE) 0)
        (DFrame.bytes (memcpyRange frame (loc % BLOCK_FRAME_SIZE) buf bufOff
          (BLOCK_FRAME_SIZE - loc % BLOCK_FRAME_SIZE)))) c2 (by omega) hdist'
      (k - (BLOCK_FRAME_SIZE - loc % BLOCK_FRAME_SIZE)) (by omega)
    rw [heq1, heq2] at this
    exact this

theorem writeLoop_written (frames : List Nat) (buf : FrameData) :
    ∀ fuel, WriteSpec frames buf fuel := by
  intro fuel
  induction fuel with
  | zero =>
      intro loc bufOff rem dev c h hdist k hk
      omega
  | succ n ih =>
      intro loc bufOff rem dev c h hdist k hk
      have hrem : rem ≠ 0 := by omega
      rw [writeLoop]
      simp only [if_neg hrem]
      have hoff := frame_offset_lt loc
      by_cases hbig : BLOCK_FRAME_SIZE - loc % BLOCK_FRAME_SIZE > rem
      · simp only [if_pos hbig]
        have hz : rem - rem = 0 := by omega
        have h1 : (loc + k) / BLOCK_FRAME_SIZE = loc / BLOCK_FRAME_SIZE := by
          simp only [BLOCK_FRAME_SIZE] at hoff hbig ⊢; omega
        have h2 : (loc + k) % BLOCK_FRAME_SIZE = loc % BLOCK_FRAME_SIZE + k := by
          simp only [BLOCK_FRAME_SIZE] at hoff hbig ⊢; omega
        cases hg : (get_block_cache c 0
            ((frames.getD (loc / BLOCK_FRAME_SIZE) 0 : Nat) : Int)).1 with
        | none =>
            simp only [hg, hz, writeLoop_rem_zero, h1, h2]
            simp only [updFun, if_true]
            simp only [frameBytes]
            exact memcpyRange_in _ _ _ _ _ _ hk
        | some f =>
            simp only [hg, hz, writeLoop_rem_zero, h1, h2]
            simp only [updFun, if_true]
            simp only [frameBytes]
            exact memcpyRange_in _ _ _ _ _ _ hk
      · simp only [if_neg hbig]
        cases hg : (get_block_cache c 0
            ((frames.getD (loc / BLOCK_FRAME_SIZE) 0 : Nat) : Int)).1 with
        | none =>
            simp only [hg]
            exact writeLoop_written_step frames buf n loc bufOff rem dev _ _
              ih h hrem hbig hdist k hk
        | some f =>
            simp only [hg]
            exact writeLoop_written_step frames buf n loc bufOff rem dev _ _
              ih h hrem hbig hdist k hk

theorem updFun_self {α : Type} (f : Nat → α) (i : Nat) (v : α) :
    updFun f i v i = v := by
  simp [updFun]

theorem updFun_ne {α : Type} (f : Nat → α) (i j : Nat) (v : α) (h : j ≠ i) :
    updFun f i v j = f j := by
  simp [updFun, h]

/-- What a successful frame allocation guarantees: driver state other
than the file's frame list is untouched, the frame list now covers
`cursor + count` bytes, and freshly allocated frame numbers keep the
list duplicate-free. -/
theorem alloc_spec (s : DriverState) (fd count : Nat) (s1 : DriverState)
    (h : allocateNewFrames s fd count = some s1) :
    s1.handles = s.handles ∧ s1.bcache = s.bcache ∧ s1.device = s.device ∧
    s1.isOn = s.isOn ∧
    (s1.files ((s.handles fd).file)).size =
      (s.files ((s.handles fd).file)).size ∧
    (s.handles fd).loc + count ≤
      (s1.files ((s.handles fd).file)).frames.length * BLOCK_FRAME_SIZE ∧
    ((s.files ((s.handles fd).file)).frames.Nodup →
      (∀ f ∈ (s.files ((s.handles fd).file)).frames, f < s.freeFrameNr) →
      (s1.files ((s.handles fd).file)).frames.Nodup) := by
  have hceil : (s.handles fd).loc + count ≤
      ceilDiv ((s.handles fd).loc + count) BLOCK_FRAME_SIZE *
        BLOCK_FRAME_SIZE := by
    simp only [ceilDiv, BLOCK_FRAME_SIZE]
    omega
  unfold allocateNewFrames at h
  by_cases h1 : ceilDiv ((s.handles fd).loc + count) BLOCK_FRAME_SIZE ≤
      (s.files ((s.handles fd).file)).frames.length
  · rw [if_pos h1] at h
    have hs : s1 = s := by injection h with h'; exact h'.symm
    subst hs
    refine ⟨rfl, rfl, rfl, rfl, rfl, ?_, fun hnd _ => hnd⟩
    exact le_trans hceil (Nat.mul_le_mul_right _ h1)
  · rw [if_neg h1] at h
    by_cases h2 : BLOCK_MAX_FRAMES < s.freeFrameNr +
        (ceilDiv ((s.handles fd).loc + count) BLOCK_FRAME_SIZE -
          (s.files ((s.handles fd).file)).frames.length)
    · rw [if_pos h2] at h
      cases h
    · rw [if_neg h2] at h
      have hs : s1 = { s with
          files := updFun s.files ((s.handles fd).file)
            { s.files ((s.handles fd).file) with
              frames := (s.files ((s.handles fd).file)).frames ++
                (List.range (ceilDiv ((s.handles fd).loc + count)
                    BLOCK_FRAME_SIZE -
                  (s.files ((s.handles fd).file)).frames.length)).map
                  (fun j => s.freeFrameNr + j) },
          freeFrameNr := s.freeFrameNr +
            (ceilDiv ((s.handles fd).loc + count) BLOCK_FRAME_SIZE -
              (s.files ((s.handles fd).file)).frames.length) } := by
        injection h with h'; exact h'.symm
      subst hs
      refine ⟨rfl, rfl, rfl, rfl, ?_, ?_, ?_⟩
      · simp [updFun_self]
      · simp only [updFun_self, List.length_append, List.length_map,
          List.length_range]
        refine le_trans hceil (Nat.mul_le_mul_right _ ?_)
        omega
      · intro hnd hbound
        simp only [updFun_self]
        refine List.Nodup.append hnd ?_ ?_
        · refine (List.nodup_range _).map ?_
          intro a b hab
          simpa using hab
        · intro a ha hamem
          have := hbound a ha
          simp only [List.mem_map, List.mem_range] at hamem
          obtain ⟨j, -, hj⟩ := hamem
          omega

theorem nodup_getD_ne (l : List Nat) (hnd : l.Nodup) (i j : Nat)
    (hi : i < l.length) (hj : j < l.length) (hij : i ≠ j) :
    l.getD i 0 ≠ l.getD j 0 := by
  rw [List.getD_eq_getElem l 0 hi, List.getD_eq_getElem l 0 hj]
  intro hEq
  exact hij (List.Nodup.getElem_inj_iff hnd |>.mp hEq)

/-! ### Claim theorems -/

/-- Claim C2: for every `read(handle, count)` on an open handle with
cursor ≤ file size, the call returns `min(count, file.size - cursor)`
and advances the cursor by exactly that amount; in particular a read at
or past end-of-file returns 0 bytes and is not an error (the result is
never `-1`). -/
theorem read_clamps_to_eof (s : DriverState) (fd count : Nat)
    (hOn : s.isOn = true) (hopen : (s.handles fd).status = true)
    (hloc : (s.handles fd).loc ≤ (s.files ((s.handles fd).file)).size) :
    (block_read s fd count).1 =
      ((min count ((s.files ((s.handles fd).file)).size -
        (s.handles fd).loc) : Nat) : Int) ∧
    ((block_read s fd count).2.2.handles fd).loc =
      (s.handles fd).loc +
        min count ((s.files ((s.handles fd).file)).size -
          (s.handles fd).loc) ∧
    0 ≤ (block_read s fd count).1 := by
  have hcnt : (if (s.files ((s.handles fd).file)).size -
        (s.handles fd).loc < count then
        (s.files ((s.handles fd).file)).size - (s.handles fd).loc
      else count) =
      min count ((s.files ((s.handles fd).file)).size -
        (s.handles fd).loc) := by
    split_ifs with h <;> omega
  unfold block_read
  rw [if_neg (show ¬((!s.isOn) = true) from by simp [hOn])]
  rw [if_neg (show ¬((s.handles fd).status = false) from by simp [hopen])]
  simp only []
  refine ⟨by rw [hcnt], ?_, ?_⟩
  · rw [updFun_self]
    simp only []
    rw [readLoop_adv _ _ _ _ _ _ (Nat.le_refl _), hcnt]
  · exact Int.natCast_nonneg _

/-- Claim C3: every successful `write(handle, data, count)` on an open
handle returns `count`, advances the cursor by exactly `count`, and
leaves `file.size = max(previous size, final cursor)`; the file size
never decreases.  "Successful" means the frame allocation succeeded
(`allocateNewFrames` returned a state rather than failing). -/
theorem write_returns_count_updates_size (s : DriverState) (fd count : Nat)
    (buf : FrameData) (s1 : DriverState)
    (hopen : (s.handles fd).status = true)
    (halloc : allocateNewFrames s fd count = some s1) :
    (block_write s fd buf count).1 = (count : Int) ∧
    ((block_write s fd buf count).2.handles fd).loc =
      (s.handles fd).loc + count ∧
    ((block_write s fd buf count).2.files ((s.handles fd).file)).size =
      max ((s.files ((s.handles fd).file)).size)
        ((s.handles fd).loc + count) ∧
    (s.files ((s.handles fd).file)).size ≤
      ((block_write s fd buf count).2.files ((s.handles fd).file)).size := by
  obtain ⟨hh, -, -, -, hsz, -, -⟩ := alloc_spec s fd count s1 halloc
  unfold block_write
  rw [if_neg (show ¬((s.handles fd).status = false) from by simp [hopen])]
  simp only [halloc]
  have hadv : (writeLoop (s1.files ((s.handles fd).file)).frames buf count
      (s.handles fd).loc 0 count s1.device s1.bcache).1 =
      (s.handles fd).loc + count :=
    writeLoop_adv _ _ _ _ _ _ _ _ (Nat.le_refl _)
  refine ⟨trivial, ?_, ?_, ?_⟩
  · rw [updFun_self]
    simp only []
    exact hadv
  · by_cases hlt : (s1.files ((s.handles fd).file)).size <
        (writeLoop (s1.files ((s.handles fd).file)).frames buf count
          (s.handles fd).loc 0 count s1.device s1.bcache).1
    · rw [if_pos hlt, updFun_self]
      simp only []
      rw [hadv] at hlt ⊢
      rw [hsz] at hlt
      omega
    · rw [if_neg hlt]
      rw [hadv] at hlt
      rw [hsz] at hlt
      rw [hsz]
      omega
  · by_cases hlt : (s1.files ((s.handles fd).file)).size <
        (writeLoop (s1.files ((s.handles fd).file)).frames buf count
          (s.handles fd).loc 0 count s1.device s1.bcache).1
    · rw [if_pos hlt, updFun_self]
      simp only []
      rw [hadv] at hlt ⊢
      rw [hsz] at hlt
      omega
    · rw [if_neg hlt]
      rw [hsz]

/-- Claim C7: `seek(handle, position)` fails exactly when the handle is
closed or `position > file.size` (`position = file.size` is accepted);
on failure the whole state (hence the cursor) is unchanged, and on
success the handle's cursor equals `position` (so a following read or
write starts at that byte) with everything else unchanged. -/
theorem seek_spec (s : DriverState) (fd p : Nat) :
    ((block_seek s fd p).1 = -1 ↔
      ((s.handles fd).status = false ∨
        (s.files ((s.handles fd).file)).size < p)) ∧
    ((block_seek s fd p).1 = -1 → (block_seek s fd p).2 = s) ∧
    ((block_seek s fd p).1 ≠ -1 →
      (block_seek s fd p).1 = 0 ∧
      ((block_seek s fd p).2.handles fd).loc = p ∧
      ((block_seek s fd p).2.handles fd).status = (s.handles fd).status ∧
      ((block_seek s fd p).2.handles fd).file = (s.handles fd).file ∧
      (∀ h, h ≠ fd → (block_seek s fd p).2.handles h = s.handles h) ∧
      (block_seek s fd p).2.files = s.files ∧
      (block_seek s fd p).2.device = s.device ∧
      (block_seek s fd p).2.bcache = s.bcache ∧
      (block_seek s fd p).2.isOn = s.isOn) := by
  unfold block_seek
  by_cases h1 : (s.handles fd).status = false
  · rw [if_pos (by simp [h1])]
    exact ⟨⟨fun _ => Or.inl h1, fun _ => rfl⟩, fun _ => rfl,
           fun hne => absurd rfl hne⟩
  · by_cases h2 : (s.files ((s.handles fd).file)).size < p
    · rw [if_pos (by simp [h2])]
      exact ⟨⟨fun _ => Or.inr h2, fun _ => rfl⟩, fun _ => rfl,
             fun hne => absurd rfl hne⟩
    · rw [if_neg (by simp [h1, h2])]
      refine ⟨?_, ?_, ?_⟩
      · constructor
        · intro h; simp at h
        · intro h
          rcases h with h | h
          · exact absurd h h1
          · exact absurd h h2
      · intro h; simp at h
      · intro _
        refine ⟨rfl, ?_, ?_, ?_, ?_, rfl, rfl, rfl, rfl⟩
        · simp [updFun_self]
        · simp [updFun_self]
        · simp [updFun_self]
        · intro hN hne
          simp only []
          rw [updFun_ne _ _ _ _ hne]

/-- Claim C10: a successful read mutates only the invoking handle's
cursor and the frame cache; it issues no device writes (the device map
is unchanged) and leaves the file table (size, name, frame lists), every
other handle, the invoking handle's status and file binding, the
file/handle counts, the free-frame counter and the power flag
unchanged.  Its result is never an error. -/
theorem read_frame_effect (s : DriverState) (fd count : Nat)
    (hOn : s.isOn = true) (hopen : (s.handles fd).status = true) :
    (block_read s fd count).2.2.device = s.device ∧
    (block_read s fd count).2.2.files = s.files ∧
    (block_read s fd count).2.2.isOn = s.isOn ∧
    (block_read s fd count).2.2.nbFiles = s.nbFiles ∧
    (block_read s fd count).2.2.nbHandles = s.nbHandles ∧
    (block_read s fd count).2.2.freeFrameNr = s.freeFrameNr ∧
    (∀ h, h ≠ fd → (block_read s fd count).2.2.handles h = s.handles h) ∧
    ((block_read s fd count).2.2.handles fd).status =
      (s.handles fd).status ∧
    ((block_read s fd count).2.2.handles fd).file = (s.handles fd).file ∧
    0 ≤ (block_read s fd count).1 := by
  unfold block_read
  rw [if_neg (show ¬((!s.isOn) = true) from by simp [hOn])]
  rw [if_neg (show ¬((s.handles fd).status = false) from by simp [hopen])]
  refine ⟨rfl, rfl, rfl, rfl, rfl, rfl, ?_, ?_, ?_, ?_⟩
  · intro h hne
    simp only []
    rw [updFun_ne _ _ _ _ hne]
  · simp [updFun_self]
  · simp [updFun_self]
  · simp only []
    exact Int.natCast_nonneg _

theorem findFileAux_some (fs : Nat → FileT) (path : List Byte) :
    ∀ k i j, findFileAux fs path i k = some j →
      i ≤ j ∧ j < i + k ∧ nameMatches path (fs j).name = true ∧
      ∀ m, i ≤ m → m < j → nameMatches path (fs m).name = false := by
  intro k
  induction k with
  | zero => intro i j h; simp [findFileAux] at h
  | succ n ih =>
      intro i j h
      rw [findFileAux] at h
      by_cases hm : nameMatches path (fs i).name = true
      · rw [if_pos hm] at h
        injection h with h
        subst h
        exact ⟨Nat.le_refl _, by omega, hm, fun m hm1 hm2 => by omega⟩
      · rw [if_neg hm] at h
        obtain ⟨h1, h2, h3, h4⟩ := ih (i + 1) j h
        refine ⟨by omega, by omega, h3, ?_⟩
        intro m hm1 hm2
        by_cases hmi : m = i
        · subst hmi
          exact Bool.not_eq_true _ ▸ (by simpa using hm)
        · exact h4 m (by omega) hm2

theorem findFileAux_none (fs : Nat → FileT) (path : List Byte) :
    ∀ k i, findFileAux fs path i k = none →
      ∀ m, i ≤ m → m < i + k → nameMatches path (fs m).name = false := by
  intro k
  induction k with
  | zero => intro i h m h1 h2; omega
  | succ n ih =>
      intro i h m h1 h2
      rw [findFileAux] at h
      by_cases hm : nameMatches path (fs i).name = true
      · rw [if_pos hm] at h; cases h
      · rw [if_neg hm] at h
        by_cases hmi : m = i
        · subst hmi
          simpa using hm
        · exact ih (i + 1) h m (by omega) (by omega)

/-- `memcmp(name, path, strlen(path)) == 0` compares only the first
`path.length` bytes.  For a NUL-free query this is exactly the
byte-prefix relation: if the query is longer than the stored name the
comparison reaches the stored NUL terminator (modelled by `getD`'s zero
default) and fails because query bytes are nonzero. -/
theorem nameMatches_iff_prefix (path name : List Byte)
    (hpath : ∀ b ∈ path, b ≠ 0) :
    nameMatches path name = true ↔ name.take path.length = path := by
  have hiff : nameMatches path name = true ↔
      ∀ k, k < path.length → name.getD k 0 = path.getD k 0 := by
    simp [nameMatches, List.all_eq_true, List.mem_range]
  rw [hiff]
  constructor
  · intro h
    have hlen : path.length ≤ name.length := by
      by_contra hcon
      push_neg at hcon
      have h1 := h name.length hcon
      have h2 : name.getD name.length 0 = 0 :=
        List.getD_eq_default _ _ (Nat.le_refl _)
      have h3 : path.getD name.length 0 ∈ path := by
        rw [List.getD_eq_getElem _ _ hcon]
        exact List.getElem_mem _
      rw [h2] at h1
      exact hpath _ h3 h1.symm
    apply List.ext_getElem
    · simp [hlen]
    · intro k hk1 hk2
      rw [List.getElem_take]
      have hkp : k < path.length := hk2
      have := h k hkp
      rw [List.getD_eq_getElem name 0 (by omega),
          List.getD_eq_getElem path 0 hkp] at this
      exact this
  · intro h k hk
    have hlen : path.length ≤ name.length := by
      have := congrArg List.length h
      simp at this
      omega
    have hgd := congrArg (fun l => l.getD k 0) h
    simp only [] at hgd
    have htk : k < (name.take path.length).length := by simp; omega
    rw [List.getD_eq_getElem _ 0 htk, List.getElem_take,
        List.getD_eq_getElem path 0 hk] at hgd
    rw [List.getD_eq_getElem name 0 (by omega),
        List.getD_eq_getElem path 0 hk]
    exact hgd

/-- Claim C9: `open(path)` resolves the path by comparing only the
first `strlen(path)` bytes of each stored name, so any path that is a
byte-prefix of an existing file's name resolves to the first such file
instead of creating a new entry; only when no prefix match exists is a
new entry with zero size and an empty frame list appended at slot
`nbFiles`.  In both cases a fresh open handle bound to the resolved file
is returned. -/
theorem open_prefix_match (s : DriverState) (path : List Byte)
    (hOn : s.isOn = true) (hpath : ∀ b ∈ path, b ≠ 0) :
    (∀ name : List Byte,
      nameMatches path name = true ↔ name.take path.length = path) ∧
    ((∃ i, i < s.nbFiles ∧ (s.files i).name.take path.length = path) →
      (block_open s path).2.nbFiles = s.nbFiles ∧
      (block_open s path).2.files = s.files ∧
      (block_open s path).1 = (s.nbHandles : Int) ∧
      (∃ j, j < s.nbFiles ∧ (s.files j).name.take path.length = path ∧
        ((block_open s path).2.handles s.nbHandles).file = j ∧
        ((block_open s path).2.handles s.nbHandles).status = true ∧
        ((block_open s path).2.handles s.nbHandles).loc = 0 ∧
        (∀ m, m < j → ¬((s.files m).name.take path.length = path)))) ∧
    ((∀ i, i < s.nbFiles → ¬((s.files i).name.take path.length = path)) →
      (block_open s path).2.nbFiles = s.nbFiles + 1 ∧
      (block_open s path).2.files s.nbFiles = createNewFile path ∧
      ((block_open s path).2.handles s.nbHandles).file = s.nbFiles ∧
      ((block_open s path).2.handles s.nbHandles).status = true ∧
      (block_open s path).1 = (s.nbHandles : Int)) := by
  have hiff := fun name => nameMatches_iff_prefix path name hpath
  refine ⟨hiff, ?_, ?_⟩
  · rintro ⟨i, hi, hmatch⟩
    cases hfind : findFileAux s.files path 0 s.nbFiles with
    | none =>
        have hfalse := findFileAux_none s.files path s.nbFiles 0 hfind i
          (by omega) (by omega)
        have hT := (hiff _).mpr hmatch
        rw [hfalse] at hT
        cases hT
    | some j =>
        obtain ⟨-, hjlt, hjm, hjmin⟩ :=
          findFileAux_some s.files path s.nbFiles 0 j hfind
        unfold block_open
        rw [if_neg (show ¬((!s.isOn) = true) from by simp [hOn])]
        simp only [hfind]
        refine ⟨trivial, trivial, trivial, ?_⟩
        refine ⟨j, by omega, (hiff _).mp hjm, ?_, ?_, ?_, ?_⟩
        · simp [updFun_self, openFile]
        · simp [updFun_self, openFile]
        · simp [updFun_self, openFile]
        · intro m hm hcon
          have hfalse := hjmin m (by omega) hm
          have hT := (hiff _).mpr hcon
          rw [hfalse] at hT
          cases hT
  · intro hall
    cases hfind : findFileAux s.files path 0 s.nbFiles with
    | some j =>
        obtain ⟨-, hjlt, hjm, -⟩ :=
          findFileAux_some s.files path s.nbFiles 0 j hfind
        exact absurd ((hiff _).mp hjm) (hall j (by omega))
    | none =>
        unfold block_open
        rw [if_neg (show ¬((!s.isOn) = true) from by simp [hOn])]
        simp only [hfind]
        refine ⟨trivial, ?_, ?_, ?_, trivial⟩
        · simp [updFun_self]
        · simp [updFun_self, openFile]
        · simp [updFun_self, openFile]

/-- Seek back to `p` and read `count` bytes on a state whose device
already holds the expected bytes at positions `[p, p + count)` of the
file's frame sequence: the seek succeeds and the read returns exactly
those bytes. -/
theorem seek_read_of_state (s2 : DriverState) (fd count p : Nat)
    (buf : FrameData) (frames1 : List Nat)
    (hOn2 : s2.isOn = true)
    (hst2 : (s2.handles fd).status = true)
    (hfr : (s2.files ((s2.handles fd).file)).frames = frames1)
    (hsz2 : p + count ≤ (s2.files ((s2.handles fd).file)).size)
    (hInv2 : CacheInv s2.bcache s2.device)
    (hbytes : ∀ k, k < count →
      frameBytes (s2.device (frames1.getD ((p + k) / BLOCK_FRAME_SIZE) 0))
        ((p + k) % BLOCK_FRAME_SIZE) = buf k) :
    (block_seek s2 fd p).1 = 0 ∧
    (block_read (block_seek s2 fd p).2 fd count).1 = (count : Int) ∧
    (block_read (block_seek s2 fd p).2 fd count).2.1 =
      (List.range count).map buf := by
  have hseek : block_seek s2 fd p =
      (0, { s2 with handles := updFun s2.handles fd { s2.handles fd with loc := p } }) := by
    unfold block_seek
    rw [if_neg (show ¬(((s2.handles fd).status = false || (s2.files ((s2.handles fd).file)).size < p : Bool) = true) from by simp [hst2]; omega)]
  rw [hseek]
  simp only []
  have hread1 : ¬((!({ s2 with handles := updFun s2.handles fd { s2.handles fd with loc := p } } : DriverState).isOn) = true) := by
    simp [hOn2]
  have hread2 : ¬((({ s2 with handles := updFun s2.handles fd { s2.handles fd with loc := p } } : DriverState).handles fd).status = false) := by
    simp [updFun_self, hst2]
  refine ⟨trivial, ?_, ?_⟩
  · unfold block_read
    rw [if_neg hread1, if_neg hread2]
    simp only [updFun_self]
    rw [if_neg (show ¬((s2.files ((s2.handles fd).file)).size - p < count) from by omega)]
  · unfold block_read
    rw [if_neg hread1, if_neg hread2]
    simp only [updFun_self]
    rw [if_neg (show ¬((s2.files ((s2.handles fd).file)).size - p < count) from by omega)]
    obtain ⟨-, hlen, hget⟩ := readLoop_content s2.device
      (s2.files ((s2.handles fd).file)).frames count p count s2.bcache
      (Nat.le_refl _) hInv2
    apply List.ext_getElem
    · rw [hlen]; simp
    · intro k hk1 hk2
      have hkc : k < count := by simpa using hk2
      have h1 := hget k hkc
      have hb := hbytes k hkc
      rw [← hfr] at hb
      rw [← List.getD_eq_getElem _ 0 hk1, h1, hb]
      simp [List.getElem_map, List.getElem_range]

/-- Claim C1: write/read round-trip.  For an open handle on a powered-on
system with a coherent cache and a duplicate-free frame list whose
frames lie below the free-frame counter (both maintained by the
allocator), writing `count` bytes at the cursor, seeking back to the
original position, and reading `count` bytes through the same handle
returns exactly the bytes that were written. -/
theorem write_read_round_trip (s : DriverState) (fd count : Nat)
    (buf : FrameData) (s1 : DriverState)
    (hOn : s.isOn = true)
    (hopen : (s.handles fd).status = true)
    (hInv : CacheInv s.bcache s.device)
    (hnd : (s.files ((s.handles fd).file)).frames.Nodup)
    (hbound : ∀ f ∈ (s.files ((s.handles fd).file)).frames,
      f < s.freeFrameNr)
    (halloc : allocateNewFrames s fd count = some s1) :
    (block_write s fd buf count).1 = (count : Int) ∧
    (block_seek (block_write s fd buf count).2 fd ((s.handles fd).loc)).1
      = 0 ∧
    (block_read (block_seek (block_write s fd buf count).2 fd
      ((s.handles fd).loc)).2 fd count).1 = (count : Int) ∧
    (block_read (block_seek (block_write s fd buf count).2 fd
      ((s.handles fd).loc)).2 fd count).2.1 =
      (List.range count).map buf := by
  obtain ⟨hh, hbc, hdev, hio, hsz, hcov, hndf⟩ :=
    alloc_spec s fd count s1 halloc
  have hnd1 : (s1.files ((s.handles fd).file)).frames.Nodup := hndf hnd hbound
  have hwrite : block_write s fd buf count =
      ((count : Int),
       { s1 with
         device := (writeLoop (s1.files ((s.handles fd).file)).frames buf
           count ((s.handles fd).loc) 0 count s1.device s1.bcache).2.1,
         bcache := (writeLoop (s1.files ((s.handles fd).file)).frames buf
           count ((s.handles fd).loc) 0 count s1.device s1.bcache).2.2,
         handles := updFun s1.handles fd
           { s1.handles fd with
             loc := (writeLoop (s1.files ((s.handles fd).file)).frames buf
               count ((s.handles fd).loc) 0 count s1.device s1.bcache).1 },
         files :=
           if (s1.files ((s.handles fd).file)).size <
               (writeLoop (s1.files ((s.handles fd).file)).frames buf
                 count ((s.handles fd).loc) 0 count s1.device s1.bcache).1
           then
             updFun s1.files ((s.handles fd).file)
               { s1.files ((s.handles fd).file) with
                 size := (writeLoop (s1.files ((s.handles fd).file)).frames
                   buf count ((s.handles fd).loc) 0 count s1.device
                   s1.bcache).1 }
           else s1.files }) := by
    unfold block_write
    rw [if_neg (show ¬((s.handles fd).status = false) from by simp [hopen])]
    simp only [halloc]
  have hWadv : (writeLoop (s1.files ((s.handles fd).file)).frames buf
      count ((s.handles fd).loc) 0 count s1.device s1.bcache).1 =
      (s.handles fd).loc + count :=
    writeLoop_adv _ _ _ _ _ _ _ _ (Nat.le_refl _)
  have hdist : ∀ i j, (s.handles fd).loc / BLOCK_FRAME_SIZE ≤ i → i < j →
      j * BLOCK_FRAME_SIZE < (s.handles fd).loc + count →
      (s1.files ((s.handles fd).file)).frames.getD i 0 ≠
        (s1.files ((s.handles fd).file)).frames.getD j 0 := by
    intro i j hi hij hjlt
    have hjlen : j < (s1.files ((s.handles fd).file)).frames.length := by
      by_contra hcon
      push_neg at hcon
      have hmul : (s1.files ((s.handles fd).file)).frames.length *
          BLOCK_FRAME_SIZE ≤ j * BLOCK_FRAME_SIZE :=
        Nat.mul_le_mul_right _ hcon
      omega
    exact nodup_getD_ne _ hnd1 i j (by omega) hjlen (by omega)
  rw [hwrite]
  simp only []
  refine ⟨trivial, ?_⟩
  refine seek_read_of_state _ fd count _ buf
    ((s1.files ((s.handles fd).file)).frames) ?_ ?_ ?_ ?_ ?_ ?_
  · simp only []
    rw [hio]
    exact hOn
  · simp only [updFun_self]
    rw [hh]
    exact hopen
  · simp only [updFun_self]
    rw [hh]
    split_ifs with hlt
    · simp [updFun_self]
    · rfl
  · simp only [updFun_self]
    rw [hh]
    split_ifs with hlt
    · simp only [updFun_self]
      omega
    · rw [hWadv] at hlt
      rw [hsz] at hlt
      rw [hsz]
      omega
  · simp only []
    refine writeLoop_inv _ _ _ _ _ _ _ _ (Nat.le_refl _) ?_
    rw [hbc, hdev]
    exact hInv
  · intro k hk
    simp only []
    have := writeLoop_written (s1.files ((s.handles fd).file)).frames buf
      count ((s.handles fd).loc) 0 count s1.device s1.bcache
      (Nat.le_refl _) hdist k hk
    simpa using this

theorem entryAt_replicate_empty (n i : Nat) :
    entryAt (List.replicate n emptyEntry) i = emptyEntry := by
  unfold entryAt
  by_cases h : i < n
  · rw [List.getD_eq_getElem _ _ (by simpa using h)]
    simp
  · exact List.getD_eq_default _ _ (by simpa using Nat.le_of_not_lt h)

theorem inv_boot (dev : Nat → DFrame) : DriverInv (bootState dev) := by
  refine ⟨⟨fun i hi => absurd hi (by simp [bootState]), ?_, fun _ => rfl⟩,
          fun _ h => rfl⟩
  intro i j hi _ _ _
  exact absurd hi (by simp [bootState])

theorem inv_setsize (s : DriverState) (n : Nat) (h : DriverInv s) :
    DriverInv { s with bcache := (set_block_cache_size s.bcache n).2 } := by
  obtain ⟨⟨hco, hnd, hoff⟩, hcl⟩ := h
  exact ⟨⟨hco, hnd, hoff⟩, hcl⟩

theorem inv_open (s : DriverState) (path : List Byte) (h : DriverInv s) :
    DriverInv (block_open s path).2 := by
  obtain ⟨hci, hcl⟩ := h
  unfold block_open
  by_cases hOn : s.isOn = true
  · rw [if_neg (by simp [hOn])]
    cases hfind : findFileAux s.files path 0 s.nbFiles with
    | some j =>
        simp only [hfind]
        exact ⟨hci, fun hoff => by rw [hOn] at hoff; cases hoff⟩
    | none =>
        simp only [hfind]
        exact ⟨hci, fun hoff => by rw [hOn] at hoff; cases hoff⟩
  · have hOn' : s.isOn = false := by
      cases hb : s.isOn
      · rfl
      · exact absurd hb hOn
    rw [if_pos (by simp [hOn'])]
    exact ⟨hci, hcl⟩

theorem inv_close (s : DriverState) (fd : Nat) (h : DriverInv s) :
    DriverInv (block_close s fd).2 := by
  obtain ⟨hci, hcl⟩ := h
  unfold block_close
  by_cases hOn : s.isOn = true
  · rw [if_neg (by simp [hOn])]
    by_cases hst : (s.handles fd).status = false
    · rw [if_pos hst]
      exact ⟨hci, hcl⟩
    · rw [if_neg hst]
      exact ⟨hci, fun hoff => by rw [hOn] at hoff; cases hoff⟩
  · have hOn' : s.isOn = false := by
      cases hb : s.isOn
      · rfl
      · exact absurd hb hOn
    rw [if_pos (by simp [hOn'])]
    exact ⟨hci, hcl⟩

theorem inv_seek (s : DriverState) (fd p : Nat) (h : DriverInv s) :
    DriverInv (block_seek s fd p).2 := by
  obtain ⟨hci, hcl⟩ := h
  unfold block_seek
  by_cases hg : ((s.handles fd).status = false ||
      (s.files ((s.handles fd).file)).size < p : Bool) = true
  · rw [if_pos hg]
    exact ⟨hci, hcl⟩
  · rw [if_neg hg]
    refine ⟨hci, ?_⟩
    intro hoff hh
    have hst := hcl hoff
    have : (s.handles fd).status = false := hst fd
    simp [this] at hg

theorem inv_poweron (s : DriverState) (h : DriverInv s) :
    DriverInv (block_poweron s).2 := by
  obtain ⟨⟨hco, hnd, hoff⟩, hcl⟩ := h
  unfold block_poweron
  by_cases hOn : s.isOn = true
  · rw [if_pos hOn]
    exact ⟨⟨hco, hnd, hoff⟩, hcl⟩
  · have hOn' : s.isOn = false := by
      cases hb : s.isOn
      · rfl
      · exact absurd hb hOn
    rw [if_neg (by simp [hOn'])]
    simp only []
    by_cases hc : s.bcache.cacheOn = true
    · have hr : init_block_cache s.bcache = (-1, s.bcache) := by
        unfold init_block_cache
        rw [if_pos hc]
      rw [hr]
      rw [if_pos rfl]
      exact ⟨⟨hco, hnd, hoff⟩, fun hoffc => by simp at hoffc⟩
    · have hc' : s.bcache.cacheOn = false := by
        cases hb : s.bcache.cacheOn
        · rfl
        · exact absurd hb hc
      have hr : init_block_cache s.bcache =
          (0, { s.bcache with
                cache := List.replicate s.bcache.maxItems emptyEntry,
                cacheOn := true }) := by
        unfold init_block_cache
        rw [if_neg (by simp [hc'])]
      rw [hr]
      rw [if_neg (by simp)]
      refine ⟨⟨?_, ?_, ?_⟩, fun hoffc => by simp at hoffc⟩
      · intro i hi hpos j hj
        rw [entryAt_replicate_empty] at hpos
        simp [emptyEntry] at hpos
      · intro i j hi hj hij heq
        rw [entryAt_replicate_empty]
        rfl
      · intro hoffc
        simp at hoffc

theorem inv_poweroff (s : DriverState) (h : DriverInv s) :
    DriverInv (block_poweroff s).2 := by
  obtain ⟨⟨hco, hnd, hoff⟩, hcl⟩ := h
  unfold block_poweroff
  by_cases hOn : s.isOn = true
  · rw [if_neg (by simp [hOn])]
    simp only []
    by_cases hc : s.bcache.cacheOn = true
    · have hr : close_block_cache s.bcache =
          (0, { s.bcache with cache := [], cacheOn := false }) := by
        unfold close_block_cache
        rw [if_neg (by simp [hc])]
      rw [hr]
      rw [if_neg (by simp)]
      refine ⟨⟨fun i hi => absurd hi (by simp), ?_, fun _ => rfl⟩,
              fun hoffc => by simp [hOn] at hoffc⟩
      intro i j hi _ _ _
      exact absurd hi (by simp)
    · have hc' : s.bcache.cacheOn = false := by
        cases hb : s.bcache.cacheOn
        · rfl
        · exact absurd hb hc
      have hr : close_block_cache s.bcache = (-1, s.bcache) := by
        unfold close_block_cache
        rw [if_pos (by simp [hc'])]
      rw [hr]
      rw [if_pos rfl]
      exact ⟨⟨hco, hnd, hoff⟩, hcl⟩
  · have hOn' : s.isOn = false := by
      cases hb : s.isOn
      · rfl
      · exact absurd hb hOn
    rw [if_pos (by simp [hOn'])]
    exact ⟨⟨hco, hnd, hoff⟩, hcl⟩

theorem inv_read (s : DriverState) (fd count : Nat) (h : DriverInv s) :
    DriverInv (block_read s fd count).2.2 := by
  obtain ⟨hci, hcl⟩ := h
  unfold block_read
  by_cases hOn : s.isOn = true
  · rw [if_neg (by simp [hOn])]
    by_cases hst : (s.handles fd).status = false
    · rw [if_pos hst]
      exact ⟨hci, hcl⟩
    · rw [if_neg hst]
      refine ⟨?_, fun hoffc => by simp [hOn] at hoffc⟩
      exact (readLoop_content s.device _ _ _ _ s.bcache
        (Nat.le_refl _) hci).1
  · have hOn' : s.isOn = false := by
      cases hb : s.isOn
      · rfl
      · exact absurd hb hOn
    rw [if_pos (by simp [hOn'])]
    exact ⟨hci, hcl⟩

theorem inv_write (s : DriverState) (fd : Nat) (buf : FrameData)
    (count : Nat) (h : DriverInv s) :
    DriverInv (block_write s fd buf count).2 := by
  obtain ⟨hci, hcl⟩ := h
  unfold block_write
  by_cases hst : (s.handles fd).status = false
  · rw [if_pos hst]
    exact ⟨hci, hcl⟩
  · rw [if_neg hst]
    cases halloc : allocateNewFrames s fd count with
    | none =>
        simp only [halloc]
        exact ⟨hci, hcl⟩
    | some s1 =>
        simp only [halloc]
        obtain ⟨hh, hbc, hdev, hio, -, -, -⟩ := alloc_spec s fd count s1 halloc
        refine ⟨?_, ?_⟩
        · refine writeLoop_inv _ _ _ _ _ _ _ _ (Nat.le_refl _) ?_
          rw [hbc, hdev]
          exact hci
        · intro hoffc
          simp only [] at hoffc
          rw [hio] at hoffc
          exact absurd (hcl hoffc fd) hst

/-- Every reachable state satisfies the driver invariant. -/
theorem reach_inv (s : DriverState) (h : Reachable s) : DriverInv s := by
  induction h with
  | boot dev => exact inv_boot dev
  | stepSetSize s n _ ih => exact inv_setsize s n ih
  | stepPowerOn s _ ih => exact inv_poweron s ih
  | stepPowerOff s _ ih => exact inv_poweroff s ih
  | stepOpen s path _ ih => exact inv_open s path ih
  | stepClose s fd _ ih => exact inv_close s fd ih
  | stepRead s fd count _ ih => exact inv_read s fd count ih
  | stepWrite s fd buf count _ ih => exact inv_write s fd buf count ih
  | stepSeek s fd loc _ ih => exact inv_seek s fd loc ih

/-- Claim C4: write-through coherence.  (i) In every reachable state,
every cache entry for a frame `F` matches the device's current contents
of `F` — the data of the most recent write issued for `F`, because
writes always go to the device.  (ii) Pushing a modified frame to the
device and then putting it into the cache (the write-through step
performed unconditionally by each `block_write` iteration) preserves the
invariant.  (iii) A cache hit on a coherent cache never serves stale
data: it returns exactly the device's current frame contents. -/
theorem cache_write_through_coherent :
    (∀ s : DriverState, Reachable s → CacheCoherent s.bcache s.device) ∧
    (∀ (c : CacheState) (dev : Nat → DFrame) (blk F : Nat) (fr : FrameData),
      CacheInv c dev →
      CacheInv (put_block_cache c blk (F : Int) fr).2
        (updFun dev F (DFrame.bytes fr))) ∧
    (∀ (c : CacheState) (dev : Nat → DFrame) (blk F : Nat) (fr : FrameData),
      CacheCoherent c dev → (get_block_cache c blk (F : Int)).1 = some fr →
      ∀ j, j < BLOCK_FRAME_SIZE → fr j = frameBytes (dev F) j) := by
  refine ⟨?_, ?_, ?_⟩
  · intro s h
    exact (reach_inv s h).1.1
  · intro c dev blk F fr hInv
    refine put_inv c dev _ blk F fr hInv ?_ ?_
    · intro j hj
      simp [updFun, frameBytes]
    · intro G hG
      simp only [updFun]
      rw [if_neg hG]
  · intro c dev blk F fr hco hget j hj
    exact get_hit_coherent c dev blk F fr hco hget j hj

/-- Claim C8: every public driver operation invoked while the system's
power flag is off returns a failure result and leaves all state
unchanged.  `block_open`, `block_close` and `block_read` check the flag
directly; `block_write` and `block_seek` have no power check in the
source but still fail, because in every reachable powered-off state all
handles are closed. -/
theorem ops_fail_when_powered_off (s : DriverState) (h : Reachable s)
    (hoff : s.isOn = false) :
    (∀ path, block_open s path = (-1, s)) ∧
    (∀ fd, block_close s fd = (-1, s)) ∧
    (∀ fd count, block_read s fd count = (-1, [], s)) ∧
    (∀ fd buf count, block_write s fd buf count = (-1, s)) ∧
    (∀ fd p, block_seek s fd p = (-1, s)) := by
  have hcl := (reach_inv s h).2 hoff
  refine ⟨?_, ?_, ?_, ?_, ?_⟩
  · intro path
    unfold block_open
    rw [if_pos (by simp [hoff])]
  · intro fd
    unfold block_close
    rw [if_pos (by simp [hoff])]
  · intro fd count
    unfold block_read
    rw [if_pos (by simp [hoff])]
  · intro fd buf count
    unfold block_write
    rw [if_pos (hcl fd)]
  · intro fd p
    unfold block_seek
    rw [if_pos (by simp [hcl fd])]

theorem U16_eq_of_lt (n : Nat) (h : n < 65536) : U16 n = n :=
  Nat.mod_eq_of_lt h

theorem entriesOf_length (dat : Nat → FrameData) :
    ∀ (l : List Nat) (base : Nat), (entriesOf dat l base).length = l.length
  | [], _ => rfl
  | _ :: t, base => by simp [entriesOf, entriesOf_length dat t (base + 1)]

theorem entriesOf_access_ge (dat : Nat → FrameData) :
    ∀ (l : List Nat) (base : Nat), ∀ e ∈ entriesOf dat l base,
      base + 1 ≤ e.access
  | [], _ => by intro e he; simp [entriesOf] at he
  | f :: t, base => by
      intro e he
      rw [entriesOf] at he
      rcases List.mem_cons.mp he with h | h
      · subst h; exact Nat.le_refl _
      · have := entriesOf_access_ge dat t (base + 1) e h
        omega

theorem findFrm_append_none (a b : List cacheEntry) (f : Int)
    (ha : findFrm a f = none) (hb : findFrm b f = none) :
    findFrm (a ++ b) f = none := by
  induction a with
  | nil => simpa using hb
  | cons e t ih =>
      rw [findFrm] at ha
      by_cases he : e.frm = f
      · rw [if_pos he] at ha; cases ha
      · rw [if_neg he] at ha
        rw [List.cons_append, findFrm, if_neg he]
        have : findFrm t f = none := by
          cases hf : findFrm t f
          · rfl
          · rw [hf] at ha; simp at ha
        rw [ih this]
        rfl

theorem findFrm_entriesOf_none (dat : Nat → FrameData) :
    ∀ (l : List Nat) (base : Nat) (f : Nat), f ∉ l →
      findFrm (entriesOf dat l base) (f : Int) = none
  | [], _, _, _ => rfl
  | g :: t, base, f, hnot => by
      rw [entriesOf, findFrm]
      have hne : ((g : Nat) : Int) ≠ (f : Int) := by
        simp only [ne_eq, Nat.cast_inj]
        intro h
        exact hnot (h ▸ List.mem_cons_self _ _)
      rw [if_neg hne]
      rw [findFrm_entriesOf_none dat t (base + 1) f
        (fun h => hnot (List.mem_cons_of_mem _ h))]
      rfl

theorem findFrm_replicate_none (n : Nat) (f : Nat) :
    findFrm (List.replicate n emptyEntry) ((f : Nat) : Int) = none := by
  induction n with
  | zero => rfl
  | succ m ih =>
      rw [List.replicate_succ, findFrm]
      rw [if_neg (by simp [emptyEntry])]
      rw [ih]
      rfl

theorem set_append_length {α : Type} (a b : List α) (v : α) :
    (a ++ b).set a.length v = a ++ b.set 0 v := by
  induction a with
  | nil => rfl
  | cons e t ih => simp [List.set, ih]

theorem entriesOf_append_singleton (dat : Nat → FrameData) :
    ∀ (l : List Nat) (base f : Nat),
      entriesOf dat (l ++ [f]) base =
        entriesOf dat l base ++
          [{ block := 0, frm := (f : Int), access := base + l.length + 1,
             cacheFrame := dat f }]
  | [], base, f => by simp [entriesOf]
  | g :: t, base, f => by
      rw [List.cons_append, entriesOf, entriesOf,
          entriesOf_append_singleton dat t (base + 1) f]
      simp [List.cons_append]
      omega

theorem scanMinAux_const :
    ∀ (l : List cacheEntry) (i best idx : Nat),
      (∀ e ∈ l, ¬ e.access < best) → scanMinAux l i best idx = idx
  | [], _, _, _, _ => rfl
  | e :: t, i, best, idx, h => by
      rw [scanMinAux, if_neg (h e (List.mem_cons_self _ _))]
      exact scanMinAux_const t (i + 1) best idx
        (fun x hx => h x (List.mem_cons_of_mem _ hx))

/-- Full characterization of the eviction scan: either no entry beats
the running best and the incoming index is returned, or the result
points at the first entry achieving the minimum access stamp below the
running best. -/
theorem scanMinAux_spec :
    ∀ (t : List cacheEntry) (d b idx : Nat),
      (scanMinAux t d b idx = idx ∧
        ∀ m, m < t.length → b ≤ (entryAt t m).access) ∨
      (∃ m, m < t.length ∧ scanMinAux t d b idx = d + m ∧
        (entryAt t m).access < b ∧
        (∀ m2, m2 < t.length →
          (entryAt t m).access ≤ (entryAt t m2).access) ∧
        (∀ m2, m2 < m → (entryAt t m).access < (entryAt t m2).access))
  | [], d, b, idx => Or.inl ⟨rfl, fun m hm => absurd hm (by simp)⟩
  | e :: t, d, b, idx => by
      rw [scanMinAux]
      by_cases he : e.access < b
      · rw [if_pos he]
        rcases scanMinAux_spec t (d + 1) e.access d with
          ⟨heq, hall⟩ | ⟨m, hm, heq, hlt, hmin, hfirst⟩
        · refine Or.inr ⟨0, by simp, by omega, he, ?_, fun m2 hm2 => by omega⟩
          intro m2 hm2
          match m2 with
          | 0 => exact Nat.le_refl _
          | m2 + 1 =>
              rw [entryAt_cons_succ]
              exact hall m2 (by simpa using hm2)
        · refine Or.inr ⟨m + 1, by simpa using hm, by omega, ?_, ?_, ?_⟩
          · rw [entryAt_cons_succ]
            omega
          · intro m2 hm2
            rw [entryAt_cons_succ]
            match m2 with
            | 0 => rw [entryAt_cons_zero]; omega
            | m2 + 1 =>
                rw [entryAt_cons_succ]
                exact hmin m2 (by simpa using hm2)
          · intro m2 hm2
            rw [entryAt_cons_succ]
            match m2 with
            | 0 => rw [entryAt_cons_zero]; omega
            | m2 + 1 =>
                rw [entryAt_cons_succ]
                exact hfirst m2 (by omega)
      · rw [if_neg he]
        rcases scanMinAux_spec t (d + 1) b idx with
          ⟨heq, hall⟩ | ⟨m, hm, heq, hlt, hmin, hfirst⟩
        · refine Or.inl ⟨heq, ?_⟩
          intro m hm
          match m with
          | 0 => rw [entryAt_cons_zero]; omega
          | m + 1 =>
              rw [entryAt_cons_succ]
              exact hall m (by simpa using hm)
        · refine Or.inr ⟨m + 1, by simpa using hm, by omega, ?_, ?_, ?_⟩
          · rw [entryAt_cons_succ]
            omega
          · intro m2 hm2
            rw [entryAt_cons_succ]
            match m2 with
            | 0 => rw [entryAt_cons_zero]; omega
            | m2 + 1 =>
                rw [entryAt_cons_succ]
                exact hmin m2 (by simpa using hm2)
          · intro m2 hm2
            rw [entryAt_cons_succ]
            match m2 with
            | 0 => rw [entryAt_cons_zero]; omega
            | m2 + 1 =>
                rw [entryAt_cons_succ]
                exact hfirst m2 (by omega)

/-- The eviction scan picks the entry with the minimal access stamp,
breaking ties by the lowest slot index. -/
theorem scanMinIdx_spec (l : List cacheEntry) (hl : l ≠ []) :
    scanMinIdx l < l.length ∧
    (∀ i, i < l.length →
      (entryAt l (scanMinIdx l)).access ≤ (entryAt l i).access) ∧
    (∀ i, i < l.length →
      (entryAt l i).access = (entryAt l (scanMinIdx l)).access →
      scanMinIdx l ≤ i) := by
  match l with
  | [] => exact absurd rfl hl
  | e :: t =>
      unfold scanMinIdx
      rcases scanMinAux_spec (e :: t) 0 ((e :: t).headD emptyEntry).access 0
        with ⟨heq, hall⟩ | ⟨m, hm, heq, hlt, hmin, hfirst⟩
      · rw [heq]
        refine ⟨by simp, ?_, fun i _ _ => Nat.zero_le _⟩
        intro i hi
        rw [entryAt_cons_zero]
        exact hall i hi
      · rw [heq]
        simp only [Nat.zero_add]
        refine ⟨hm, hmin, ?_⟩
        intro i hi hEq
        by_contra hcon
        push_neg at hcon
        have := hfirst i hcon
        omega

theorem set_append_of_length {α : Type} (a b : List α) (n : Nat) (v : α)
    (h : n = a.length) : (a ++ b).set n v = a ++ b.set 0 v := by
  subst h
  exact set_append_length a b v

/-- Putting a fresh frame into a partially filled fresh cache occupies
the next free slot (`putTracker`). -/
theorem put_fresh_step (C : Nat) (dat : Nat → FrameData) (done : List Nat)
    (f : Nat) (hnotin : f ∉ done) (hlt : done.length < C)
    (hb : done.length + 1 < 65536) :
    (put_block_cache (mkFilled C dat done) 0 (f : Int) (dat f)).2 =
      mkFilled C dat (done ++ [f]) := by
  unfold put_block_cache
  rw [if_neg (by simp [mkFilled])]
  have hfind : findFrm (mkFilled C dat done).cache ((f : Nat) : Int) =
      none := by
    refine findFrm_append_none _ _ _
      (findFrm_entriesOf_none dat done 0 f hnotin)
      (findFrm_replicate_none _ f)
  rw [hfind]
  rw [if_pos (show (mkFilled C dat done).putTracker <
    (mkFilled C dat done).maxItems from hlt)]
  simp only []
  unfold mkFilled
  simp only [CacheState.mk.injEq]
  refine ⟨trivial, ?_, ?_, ?_, trivial⟩
  · rw [entriesOf_append_singleton]
    have hsplit : C - done.length = (C - (done.length + 1)) + 1 := by omega
    rw [hsplit, List.replicate_succ]
    rw [set_append_of_length _ _ _ _ (entriesOf_length dat done 0).symm]
    rw [U16_eq_of_lt _ (by omega)]
    rw [← List.append_cons]
    norm_num
  · rw [U16_eq_of_lt _ (by omega)]
    simp
  · rw [U16_eq_of_lt _ (by omega)]
    simp

/-- Filling a fresh cache with distinct frames (at most the capacity,
and few enough that the 16-bit counters do not wrap) fills consecutive
slots with consecutive access stamps. -/
theorem putSeq_build (C : Nat) (dat : Nat → FrameData) :
    ∀ (todo done : List Nat), (done ++ todo).Nodup →
      done.length + todo.length ≤ C → done.length + todo.length < 65536 →
      putSeq (mkFilled C dat done) todo dat = mkFilled C dat (done ++ todo)
  | [], done, _, _, _ => by simp [putSeq]
  | f :: t, done, hnd, hle, hlt => by
      obtain ⟨hd1, hd2, hdisj⟩ := List.nodup_append.mp hnd
      have hnotin : f ∉ done := fun hf =>
        hdisj hf (List.mem_cons_self _ _)
      have hstep := put_fresh_step C dat done f hnotin
        (by simp at hle; omega) (by simp at hlt; omega)
      show putSeq ((put_block_cache (mkFilled C dat done) 0 (f : Int)
        (dat f)).2) t dat = _
      rw [hstep]
      have hassoc : done ++ f :: t = (done ++ [f]) ++ t := by simp
      rw [hassoc]
      refine putSeq_build C dat t (done ++ [f]) ?_ ?_ ?_
      · rw [← hassoc]; exact hnd
      · simp at hle ⊢; omega
      · simp at hlt ⊢; omega

theorem putSeq_append (c : CacheState) (a b : List Nat)
    (dat : Nat → FrameData) :
    putSeq c (a ++ b) dat = putSeq (putSeq c a dat) b dat := by
  unfold putSeq
  rw [List.foldl_append]

/-- Claim C5: LRU eviction.  (i) Scenario: on a freshly initialized
cache of capacity `C`, after `C + 1` distinct frames are each put once
in order (as a first-time read or write of each frame does), a
subsequent `get` of the first frame misses and a `get` of the last
frame hits.  (ii) In general, when the cache is full and the frame is
not present, `put_block_cache` overwrites the slot with the lowest
access stamp, ties broken by the lowest slot index.  (The bound
`C + 1 < 65536` keeps the 16-bit counters from wrapping.) -/
theorem cache_lru_eviction :
    (∀ (C f1 flast : Nat) (Fmid : List Nat) (dat : Nat → FrameData),
      0 < C → (f1 :: Fmid).length = C →
      ((f1 :: Fmid) ++ [flast]).Nodup → C + 1 < 65536 →
      (get_block_cache (putSeq (init_block_cache (cfgCache C)).2
        ((f1 :: Fmid) ++ [flast]) dat) 0 (f1 : Int)).1 = none ∧
      (get_block_cache (get_block_cache (putSeq (init_block_cache
        (cfgCache C)).2 ((f1 :: Fmid) ++ [flast]) dat) 0 (f1 : Int)).2 0
        (flast : Int)).1.isSome = true) ∧
    (∀ (c : CacheState) (blk F : Nat) (buf : FrameData),
      c.cacheOn = true → ¬ c.putTracker < c.maxItems →
      findFrm c.cache (F : Int) = none → c.cache ≠ [] →
      (put_block_cache c blk (F : Int) buf).2.cache =
        c.cache.set (scanMinIdx c.cache)
          ⟨blk, (F : Int), U16 (c.lastAccess + 1), buf⟩ ∧
      scanMinIdx c.cache < c.cache.length ∧
      (∀ i, i < c.cache.length →
        (entryAt c.cache (scanMinIdx c.cache)).access ≤
          (entryAt c.cache i).access) ∧
      (∀ i, i < c.cache.length →
        (entryAt c.cache i).access =
          (entryAt c.cache (scanMinIdx c.cache)).access →
        scanMinIdx c.cache ≤ i)) := by
  constructor
  · intro C f1 flast Fmid dat hC hlen hnd hbound
    obtain ⟨hndL, hndR, hdisj⟩ := List.nodup_append.mp hnd
    have hf1mid : f1 ∉ Fmid := fun h => (List.nodup_cons.mp hndL).1 h
    have hlastnotin : flast ∉ (f1 :: Fmid) := fun hf =>
      hdisj hf (List.mem_cons_self _ _)
    have hinit : (init_block_cache (cfgCache C)).2 = mkFilled C dat [] := by
      unfold init_block_cache cfgCache mkFilled
      rw [if_neg (by simp)]
      simp [entriesOf]
    have hfill : putSeq (mkFilled C dat []) (f1 :: Fmid) dat =
        mkFilled C dat (f1 :: Fmid) := by
      have := putSeq_build C dat (f1 :: Fmid) [] (by simpa using hndL)
        (by simp [hlen]) (by simp [hlen]; omega)
      simpa using this
    have hchain : putSeq (init_block_cache (cfgCache C)).2
        ((f1 :: Fmid) ++ [flast]) dat =
        (put_block_cache (mkFilled C dat (f1 :: Fmid)) 0 (flast : Int)
          (dat flast)).2 := by
      rw [hinit, putSeq_append, hfill]
      rfl
    have hfull : ¬ (mkFilled C dat (f1 :: Fmid)).putTracker <
        (mkFilled C dat (f1 :: Fmid)).maxItems := by
      simp [mkFilled, hlen]
    have hfind : findFrm (mkFilled C dat (f1 :: Fmid)).cache
        ((flast : Nat) : Int) = none :=
      findFrm_append_none _ _ _
        (findFrm_entriesOf_none dat _ 0 flast hlastnotin)
        (findFrm_replicate_none _ flast)
    have hscan : scanMinIdx (mkFilled C dat (f1 :: Fmid)).cache = 0 := by
      show scanMinIdx ((⟨0, ((f1 : Nat) : Int), 1, dat f1⟩ : cacheEntry) ::
        (entriesOf dat Fmid 1 ++
          List.replicate (C - (f1 :: Fmid).length) emptyEntry)) = 0
      unfold scanMinIdx
      refine scanMinAux_const _ _ _ _ ?_
      intro e he
      simp only [List.headD_cons]
      rcases List.mem_cons.mp he with h3 | h3
      · subst h3
        exact Nat.lt_irrefl _
      · rcases List.mem_append.mp h3 with h4 | h4
        · have hacc := entriesOf_access_ge dat Fmid 1 e h4
          show ¬ e.access < 1
          omega
        · rw [hlen, Nat.sub_self] at h4
          cases h4
    have hevict : (put_block_cache (mkFilled C dat (f1 :: Fmid)) 0
        (flast : Int) (dat flast)).2 =
        { maxItems := C,
          cache := (⟨0, ((flast : Nat) : Int), C + 1, dat flast⟩ :
              cacheEntry) ::
            (entriesOf dat Fmid 1 ++
              List.replicate (C - (f1 :: Fmid).length) emptyEntry),
          putTracker := (f1 :: Fmid).length, lastAccess := C + 1,
          cacheOn := true } := by
      unfold put_block_cache
      rw [if_neg (by simp [mkFilled])]
      rw [hfind]
      rw [if_neg hfull]
      simp only [hscan]
      unfold mkFilled
      simp only [CacheState.mk.injEq]
      refine ⟨trivial, ?_, trivial, ?_, trivial⟩
      · rw [U16_eq_of_lt _ (by simp [hlen]; omega)]
        rw [show (f1 :: Fmid).length + 1 = C + 1 from by rw [hlen]]
        rfl
      · rw [U16_eq_of_lt _ (by simp [hlen]; omega)]
        rw [show (f1 :: Fmid).length + 1 = C + 1 from by rw [hlen]]
    rw [hchain, hevict]
    have hfind1 : findFrm ((⟨0, ((flast : Nat) : Int), C + 1, dat flast⟩ :
          cacheEntry) ::
        (entriesOf dat Fmid 1 ++
          List.replicate (C - (f1 :: Fmid).length) emptyEntry))
        ((f1 : Nat) : Int) = none := by
      rw [findFrm]
      rw [if_neg (show ¬(((flast : Nat) : Int) = ((f1 : Nat) : Int)) from by
        simp only [ne_eq, Nat.cast_inj]
        intro h
        exact hdisj (h ▸ List.mem_cons_self _ _) (List.mem_cons_self _ _))]
      rw [findFrm_append_none _ _ _
        (findFrm_entriesOf_none dat _ 1 f1 hf1mid)
        (findFrm_replicate_none _ f1)]
      rfl
    have hget1 : get_block_cache
        ({ maxItems := C,
           cache := (⟨0, ((flast : Nat) : Int), C + 1, dat flast⟩ :
               cacheEntry) ::
             (entriesOf dat Fmid 1 ++
               List.replicate (C - (f1 :: Fmid).length) emptyEntry),
           putTracker := (f1 :: Fmid).length, lastAccess := C + 1,
           cacheOn := true } : CacheState) 0 ((f1 : Nat) : Int) =
        (none, _) := get_of_findFrm_none _ 0 _ hfind1
    constructor
    · rw [hget1]
    · rw [hget1]
      simp only []
      unfold get_block_cache
      rw [show findFrm ((⟨0, ((flast : Nat) : Int), C + 1, dat flast⟩ :
            cacheEntry) ::
          (entriesOf dat Fmid 1 ++
            List.replicate (C - (f1 :: Fmid).length) emptyEntry))
          ((flast : Nat) : Int) = some 0 from by
        rw [findFrm, if_pos rfl]]
      rfl
  · intro c blk F buf hon hfull hfind hne
    unfold put_block_cache
    rw [if_neg (by simp [hon])]
    rw [hfind]
    rw [if_neg hfull]
    obtain ⟨h1, h2, h3⟩ := scanMinIdx_spec c.cache hne
    exact ⟨rfl, h1, h2, h3⟩

/-- Claim C6 (code bug): after a successful power-on / open / write /
power-off run, `block_poweroff` has returned success but never cleared
`isOn`; the following `block_poweron` therefore fails with `-1` and
reloads nothing — the File Table still has `nbFiles = 0`, so the
metadata of the previously written file is not restored.  The spec's
metadata round-trip cannot be exercised at all. -/
theorem poweroff_never_clears_ison :
    (block_poweron (bootState bootDevEmpty)).1 = 0 ∧
    (block_open c6s1 [97]).1 = 0 ∧
    (block_write c6s2 0 (fun _ => 120) 1).1 = 1 ∧
    (c6s3.files 0).size = 1 ∧
    c6s3.nbFiles = 1 ∧
    (block_poweroff c6s3).1 = 0 ∧
    c6s4.isOn = true ∧
    (block_poweron c6s4).1 = -1 ∧
    (block_poweron c6s4).2.nbFiles = 0 := by
  refine ⟨?_, ?_, ?_, ?_, ?_, ?_, ?_, ?_, ?_⟩ <;> decide

theorem coherentL_replicate (n : Nat) (dev : Nat → DFrame) :
    CoherentL (List.replicate n emptyEntry) dev := by
  intro i hi hpos j hj
  rw [entryAt_replicate_empty] at hpos
  simp [emptyEntry] at hpos

theorem nodupL_replicate (n : Nat) : NodupL (List.replicate n emptyEntry) := by
  intro i j _ _ _ _
  rw [entryAt_replicate_empty]
  rfl

theorem cacheInv_fresh (mi n pt la : Nat) (dev : Nat → DFrame) :
    CacheInv ⟨mi, List.replicate n emptyEntry, pt, la, true⟩ dev :=
  ⟨coherentL_replicate n dev, nodupL_replicate n,
   fun h => Bool.noConfusion h⟩

theorem read_clamps_to_eof_witness :
    (block_read demoState 0 50).1 =
      ((min 50 ((demoState.files ((demoState.handles 0).file)).size -
        (demoState.handles 0).loc) : Nat) : Int) ∧
    ((block_read demoState 0 50).2.2.handles 0).loc =
      (demoState.handles 0).loc +
        min 50 ((demoState.files ((demoState.handles 0).file)).size -
          (demoState.handles 0).loc) ∧
    0 ≤ (block_read demoState 0 50).1 :=
  read_clamps_to_eof demoState 0 50 rfl (by decide) (by decide)

theorem write_returns_count_updates_size_witness :
    (block_write demoState 0 demoBuf 3).1 = (3 : Int) ∧
    ((block_write demoState 0 demoBuf 3).2.handles 0).loc =
      (demoState.handles 0).loc + 3 ∧
    ((block_write demoState 0 demoBuf 3).2.files
      ((demoState.handles 0).file)).size =
      max ((demoState.files ((demoState.handles 0).file)).size)
        ((demoState.handles 0).loc + 3) ∧
    (demoState.files ((demoState.handles 0).file)).size ≤
      ((block_write demoState 0 demoBuf 3).2.files
        ((demoState.handles 0).file)).size :=
  write_returns_count_updates_size demoState 0 3 demoBuf demoState
    (by decide) rfl

theorem write_read_round_trip_witness :
    (block_write demoState 0 demoBuf 3).1 = (3 : Int) ∧
    (block_seek (block_write demoState 0 demoBuf 3).2 0
      ((demoState.handles 0).loc)).1 = 0 ∧
    (block_read (block_seek (block_write demoState 0 demoBuf 3).2 0
      ((demoState.handles 0).loc)).2 0 3).1 = (3 : Int) ∧
    (block_read (block_seek (block_write demoState 0 demoBuf 3).2 0
      ((demoState.handles 0).loc)).2 0 3).2.1 =
      (List.range 3).map demoBuf :=
  write_read_round_trip demoState 0 3 demoBuf demoState rfl (by decide)
    (cacheInv_fresh 2 2 0 0 demoDev) (by decide) (by decide) rfl

theorem seek_spec_witness :
    (block_seek demoState 0 5).1 = 0 ∧
    ((block_seek demoState 0 5).2.handles 0).loc = 5 :=
  ⟨((seek_spec demoState 0 5).2.2 (by decide)).1,
   ((seek_spec demoState 0 5).2.2 (by decide)).2.1⟩

theorem ops_fail_when_powered_off_witness :
    block_open (bootState demoDev) [97] = (-1, bootState demoDev) ∧
    block_close (bootState demoDev) 0 = (-1, bootState demoDev) ∧
    block_read (bootState demoDev) 0 3 = (-1, [], bootState demoDev) ∧
    block_write (bootState demoDev) 0 demoBuf 3 =
      (-1, bootState demoDev) ∧
    block_seek (bootState demoDev) 0 5 = (-1, bootState demoDev) :=
  have h := ops_fail_when_powered_off (bootState demoDev)
    (Reachable.boot demoDev) rfl
  ⟨h.1 [97], h.2.1 0, h.2.2.1 0 3, h.2.2.2.1 0 demoBuf 3, h.2.2.2.2 0 5⟩

theorem open_prefix_match_witness :
    (block_open demoState [97]).2.nbFiles = demoState.nbFiles ∧
    (block_open demoState [97]).2.files = demoState.files ∧
    (block_open demoState [97]).1 = (demoState.nbHandles : Int) :=
  have h := (open_prefix_match demoState [97] rfl (by decide)).2.1
    ⟨0, by decide, by decide⟩
  ⟨h.1, h.2.1, h.2.2.1⟩

theorem read_frame_effect_witness :
    (block_read demoState 0 5).2.2.device = demoState.device ∧
    (block_read demoState 0 5).2.2.files = demoState.files ∧
    (block_read demoState 0 5).2.2.isOn = demoState.isOn ∧
    (block_read demoState 0 5).2.2.nbFiles = demoState.nbFiles ∧
    (block_read demoState 0 5).2.2.nbHandles = demoState.nbHandles ∧
    (block_read demoState 0 5).2.2.freeFrameNr = demoState.freeFrameNr ∧
    ((block_read demoState 0 5).2.2.handles 0).status =
      (demoState.handles 0).status ∧
    ((block_read demoState 0 5).2.2.handles 0).file =
      (demoState.handles 0).file ∧
    0 ≤ (block_read demoState 0 5).1 :=
  have h := read_frame_effect demoState 0 5 rfl (by decide)
  ⟨h.1, h.2.1, h.2.2.1, h.2.2.2.1, h.2.2.2.2.1, h.2.2.2.2.2.1,
   h.2.2.2.2.2.2.2.1, h.2.2.2.2.2.2.2.2.1, h.2.2.2.2.2.2.2.2.2⟩

theorem cache_write_through_coherent_witness :
    CacheCoherent (bootState demoDev).bcache (bootState demoDev).device ∧
    CacheInv (put_block_cache demoCache 0 ((8 : Nat) : Int) demoBuf).2
      (updFun demoDev 8 (DFrame.bytes demoBuf)) ∧
    demoBuf 0 = frameBytes ((updFun demoDev 8 (DFrame.bytes demoBuf)) 8) 0 :=
  have h := cache_write_through_coherent
  have h2 := h.2.1 demoCache demoDev 0 8 demoBuf
    (cacheInv_fresh 2 2 0 0 demoDev)
  ⟨h.1 (bootState demoDev) (Reachable.boot demoDev), h2,
   h.2.2 (put_block_cache demoCache 0 ((8 : Nat) : Int) demoBuf).2
     (updFun demoDev 8 (DFrame.bytes demoBuf)) 0 8 demoBuf h2.1 rfl 0
     (by decide)⟩

theorem cache_lru_eviction_witness :
    (get_block_cache (putSeq (init_block_cache (cfgCache 2)).2
      ((5 :: [6]) ++ [7]) demoDat) 0 ((5 : Nat) : Int)).1 = none ∧
    (get_block_cache (get_block_cache (putSeq (init_block_cache
      (cfgCache 2)).2 ((5 :: [6]) ++ [7]) demoDat) 0 ((5 : Nat) : Int)).2
      0 ((7 : Nat) : Int)).1.isSome = true ∧
    (put_block_cache c2demo 0 ((9 : Nat) : Int) demoBuf).2.cache =
      c2demo.cache.set (scanMinIdx c2demo.cache)
        ⟨0, ((9 : Nat) : Int), U16 (c2demo.lastAccess + 1), demoBuf⟩ ∧
    scanMinIdx c2demo.cache < c2demo.cache.length :=
  have h1 := cache_lru_eviction.1 2 5 7 [6] demoDat (by decide)
    (by decide) (by decide) (by decide)
  have h2 := cache_lru_eviction.2 c2demo 0 9 demoBuf rfl (by decide)
    (by decide) (List.cons_ne_nil _ _)
  ⟨h1.1, h1.2, h2.1, h2.2.1⟩
